import Mathlib

/-!
Verification of `multicombs.py`: a batched subset-sum engine over an abstract
commutative monoid (caller-supplied `adder`/`zero`), consisting of
* `multisubset`  — the greedy pairwise-reuse solver,
* `multisubset2` — the partitioned power-set solver,
* `lincomb`      — the Pippenger-style linear-combination reducer.

The embedding is value-level and faithful to the Python source:
* Python exceptions (`ValueError` from `math.log(0)`, `IndexError` from list
  subscripts, `ValueError` from `max([])`) and the `None` returned when the
  9999999-round loop cap is exhausted are modeled with `Except MErr`.
* Python `set`s of indices are modeled as strictly sorted duplicate-free
  `List ℕ` (CPython iterates small-int sets in an unspecified hash order; the
  spec declares tie order an implementation choice, and all theorems below are
  insensitive to this order thanks to associativity/commutativity).
* Python dicts are association lists in insertion order.
* `int(math.log(n))` is a double-precision truncation in Python; `floorLn`
  computes the same value from a 20-decimal-digit rational lower bound of `e`,
  which agrees with the float computation on all inputs of realistic size.
  No theorem depends on its exact value, only on `math.log 0` raising.
-/

namespace Multicombs

/-- Python exceptions and the `None` fall-through relevant to `multicombs.py`.
`mathDomain` models `ValueError: math domain error` from `math.log(0)`;
`indexError` models `IndexError` from an out-of-range list subscript;
`valueError` models `ValueError` from `max()` on an empty sequence;
`noneReturned` models `multisubset` falling off its 9999999-round loop
and returning `None`. -/
inductive MErr : Type where
  | mathDomain : MErr
  | indexError : MErr
  | valueError : MErr
  | noneReturned : MErr
deriving DecidableEq, Repr

/-- Fuel-bounded bit length: `bitLenAux fuel n` is the binary length of `n`
provided `fuel ≥` that length (fuel `n` always suffices). -/
def bitLenAux : ℕ → ℕ → ℕ
  | 0, _ => 0
  | fuel + 1, n => if n = 0 then 0 else bitLenAux fuel (n / 2) + 1

/-- Binary length of a natural number (`0 ↦ 0`, `1 ↦ 1`, `2,3 ↦ 2`, …),
as computed by Python's `len(bin(n)) - 2` for positive `n`. -/
def natBitLen (n : ℕ) : ℕ := bitLenAux n n

/-- Numerator of a 20-decimal-digit lower approximation of Euler's `e`
(denominator `10^20`), used to evaluate `int(math.log n)` exactly. -/
def eApproxNum : ℕ := 271828182845904523536

/-- Whether `(eApproxNum / 10^20) ^ k ≤ n`, i.e. (up to the approximation)
`e ^ k ≤ n`, decided in exact integer arithmetic. -/
def eApproxPowLe (k n : ℕ) : Bool := eApproxNum ^ k ≤ n * 10 ^ (20 * k)

/-- `int(math.log n)` for `n ≥ 1`: the greatest `k` with `e ^ k ≤ n`
(and `0` for `n = 0`, where Python raises instead — the caller guards). -/
def floorLn (n : ℕ) : ℕ :=
  (((List.range (natBitLen n + 1)).filter fun k => eApproxPowLe k n).length) - 1

/-- Insert `x` into a strictly sorted duplicate-free list, keeping it so. -/
def mkSetInsert (x : ℕ) : List ℕ → List ℕ
  | [] => [x]
  | y :: ys => if x < y then x :: y :: ys else if x = y then y :: ys else y :: mkSetInsert x ys

/-- The Python set comprehension `{x for x in subset}`: the canonical
(strictly sorted, duplicate-free) list of the elements of `l`. -/
def mkSet (l : List ℕ) : List ℕ := l.foldr mkSetInsert []

/-- `for x in subset: for y in subset: if y > x`: all ordered index pairs
drawn from one subset. -/
def subsetPairs (s : List ℕ) : List (ℕ × ℕ) :=
  s.flatMap fun x => s.filterMap fun y => if x < y then some (x, y) else none

/-- `pair_count[(x,y)] = pair_count.get((x,y), 0) + 1` on an insertion-ordered
association list. -/
def bump : List ((ℕ × ℕ) × ℕ) → ℕ × ℕ → List ((ℕ × ℕ) × ℕ)
  | [], p => [(p, 1)]
  | (q, c) :: rest, p => if q = p then (q, c + 1) :: rest else (q, c) :: bump rest p

/-- The `pair_count` dict built by one round of `multisubset`. -/
def pairCounts (subsets : List (ℕ × List ℕ)) : List ((ℕ × ℕ) × ℕ) :=
  subsets.foldl (fun pc e => (subsetPairs e.2).foldl bump pc) []

/-- `pair_count[el]` lookup (`0` default is never used on keys of the dict). -/
def countOf (pc : List ((ℕ × ℕ) × ℕ)) (p : ℕ × ℕ) : ℕ :=
  match pc.find? fun e => e.1 == p with
  | some e => e.2
  | none => 0

/-- Stable insertion step for descending sort by `countOf`. -/
def insertPairDesc (pc : List ((ℕ × ℕ) × ℕ)) (p : ℕ × ℕ) :
    List (ℕ × ℕ) → List (ℕ × ℕ)
  | [] => [p]
  | q :: qs => if countOf pc p < countOf pc q then q :: insertPairDesc pc p qs else p :: q :: qs

/-- Python's `sorted(keys, key=lambda el: pair_count[el], reverse=True)`:
a stable descending sort (equal counts keep dict insertion order).
Python's timsort produces the identical list, stability being all that
determines it. -/
def sortPairsDesc (pc : List ((ℕ × ℕ) × ℕ)) : List (ℕ × ℕ) → List (ℕ × ℕ)
  | [] => []
  | p :: ps => insertPairDesc pc p (sortPairsDesc pc ps)

/-- The working state of `multisubset`: the growing element arena, the
remaining `subsets` dict (insertion-ordered association list) and the
`output` list. -/
structure MState (α : Type) : Type where
  numbers : List α
  subsets : List (ℕ × List ℕ)
  output : List α

/-- One merged pair `(x, y)` applied to every remaining subset, exactly as the
inner `for key, subset in list(subsets.items())` loop: a subset containing
both loses both, an emptied subset records `numbers[-1] = v` as its sum and is
deleted, a non-emptied one receives the merged element's index `newIdx`
(`set.add` is a no-op if present — impossible for valid indices, but modeled). -/
def rewriteSubsets (x y newIdx : ℕ) (v : α) :
    List (ℕ × List ℕ) → List α → List (ℕ × List ℕ) × List α
  | [], out => ([], out)
  | (k, s) :: rest, out =>
    if x ∈ s ∧ y ∈ s then
      let s' := (s.erase x).erase y
      if s' = [] then rewriteSubsets x y newIdx v rest (out.set k v)
      else
        let r := rewriteSubsets x y newIdx v rest out
        ((k, if newIdx ∈ s' then s' else s' ++ [newIdx]) :: r.1, r.2)
    else
      let r := rewriteSubsets x y newIdx v rest out
      ((k, s) :: r.1, r.2)

/-- What one merged pair does to a single subsets-dict entry (the pure
per-entry view of `rewriteSubsets`; `none` means the entry is deleted). -/
def rwEntry (x y newIdx : ℕ) (e : ℕ × List ℕ) : Option (ℕ × List ℕ) :=
  if x ∈ e.2 ∧ y ∈ e.2 then
    let s' := (e.2.erase x).erase y
    if s' = [] then none else some (e.1, if newIdx ∈ s' then s' else s' ++ [newIdx])
  else some e

/-- Keys of the entries that one merged pair deletes (their subsets were
exactly the pair). -/
def rwDeleted (x y : ℕ) (subs : List (ℕ × List ℕ)) : List ℕ :=
  ((subs.filter fun e => decide (x ∈ e.2 ∧ y ∈ e.2) && ((e.2.erase x).erase y).isEmpty).map
    Prod.fst)

/-- The `for maxx, maxy in pairs_by_count` merge loop with its `used` set:
skip a pair sharing an index with an earlier merge of this round, otherwise
append `adder(numbers[maxx], numbers[maxy])` and rewrite all subsets.
Reading an out-of-range index raises `IndexError`. -/
def processPairs (adder : α → α → α) :
    List (ℕ × ℕ) → List ℕ → List α → List (ℕ × List ℕ) → List α →
    Except MErr (List α × List (ℕ × List ℕ) × List α)
  | [], _, numbers, subsets, out => .ok (numbers, subsets, out)
  | (x, y) :: rest, used, numbers, subsets, out =>
    if x ∈ used ∨ y ∈ used then processPairs adder rest used numbers subsets out
    else
      match numbers[x]?, numbers[y]? with
      | some a, some b =>
        let r := rewriteSubsets x y numbers.length (adder a b) subsets out
        processPairs adder rest (x :: y :: used) (numbers ++ [adder a b]) r.1 r.2
      | _, _ => .error .indexError

/-- `for index in subset: output[key] = adder(output[key], numbers[index])`.
(`output[key]` is always in range: keys come from `enumerate`.) -/
def foldIndexes (adder : α → α → α) (zero : α) (numbers : List α) (k : ℕ) :
    List ℕ → List α → Except MErr (List α)
  | [], out => .ok out
  | i :: is, out =>
    match numbers[i]? with
    | some v => foldIndexes adder zero numbers k is (out.set k (adder (out.getD k zero) v))
    | none => .error .indexError

/-- The exit-condition branch of `multisubset`: fold every remaining subset
directly into the output. -/
def finishOutput (adder : α → α → α) (zero : α) (numbers : List α) :
    List (ℕ × List ℕ) → List α → Except MErr (List α)
  | [], out => .ok out
  | (k, s) :: rest, out =>
    match foldIndexes adder zero numbers k s out with
    | .ok out' => finishOutput adder zero numbers rest out'
    | .error e => .error e

/-- One round of the `for roundcount in range(9999999)` loop: count pairs,
evaluate the cutoff `len(numbers)*int(math.log(len(numbers)))` (raising the
math-domain error on an empty arena), exit if no candidate pairs remain,
otherwise merge the candidate pairs. `Sum.inl` is the function's return. -/
def msRound (adder : α → α → α) (zero : α) (st : MState α) :
    Except MErr (List α ⊕ MState α) :=
  let pc := pairCounts st.subsets
  if st.numbers.length = 0 then .error .mathDomain
  else
    let cutoff := st.numbers.length * floorLn st.numbers.length
    let pairs := (sortPairsDesc pc (pc.map Prod.fst)).take cutoff
    if pairs.isEmpty then
      match finishOutput adder zero st.numbers st.subsets st.output with
      | .ok out => .ok (.inl out)
      | .error e => .error e
    else
      match processPairs adder pairs [] st.numbers st.subsets st.output with
      | .ok r => .ok (.inr ⟨r.1, r.2.1, r.2.2⟩)
      | .error e => .error e

/-- The round loop, fueled by the source's `range(9999999)` bound; running out
of fuel is Python's falling off the loop and returning `None`. -/
def msLoop (adder : α → α → α) (zero : α) : ℕ → MState α → Except MErr (List α)
  | 0, _ => .error .noneReturned
  | fuel + 1, st =>
    match msRound adder zero st with
    | .ok (.inl out) => .ok out
    | .ok (.inr st') => msLoop adder zero fuel st'
    | .error e => .error e

/-- `multisubset(numbers, subsets, adder, zero)` from `multicombs.py`. -/
def multisubset (adder : α → α → α) (zero : α) (numbers : List α)
    (subsets : List (List ℕ)) : Except MErr (List α) :=
  msLoop adder zero 9999999
    ⟨numbers, (subsets.map mkSet).enum, List.replicate subsets.length zero⟩

/-- `while len(numbers) % partition_size != 0: numbers.append(zero)`. -/
def padToMultiple (zero : α) (numbers : List α) (p : ℕ) : List α :=
  numbers ++ List.replicate ((p - numbers.length % p) % p) zero

/-- Fuel-bounded chunking; `fuel ≥ l.length` gives the full decomposition into
`p`-sized slices (the fuel only avoids a well-founded recursion that the
kernel could not evaluate). -/
def chunksAux (p : ℕ) : ℕ → List α → List (List α)
  | 0, _ => []
  | _ + 1, [] => []
  | fuel + 1, a :: l => (a :: l).take p :: chunksAux p fuel ((a :: l).drop p)

/-- `range(0, len(numbers), partition_size)` slicing of `l` into chunks. -/
def chunks (p : ℕ) (l : List α) : List (List α) := chunksAux p l.length l

/-- The power-set table of one partition: `new_power_set = [zero]`, then for
each value `v` append `adder(n, v)` for every existing entry `n`. -/
def powerSet (adder : α → α → α) (zero : α) (chunk : List α) : List α :=
  chunk.foldl (fun acc v => acc ++ acc.map fun n => adder n v) [zero]

/-- The bitmask `index_in_power_set` of one partition (elements at positions
`base + j`, `j < p`) for one subset. -/
def maskOf (s : List ℕ) (base p : ℕ) : ℕ :=
  (List.range p).foldl (fun m j => if base + j ∈ s then m + 2 ^ j else m) 0

/-- The entries of a chunk selected by the bits of a mask, low bit first
(the combination a power-set table entry is the sum of). -/
def maskSelect : List α → ℕ → List α
  | [], _ => []
  | v :: rest, m => (if m % 2 = 1 then [v] else []) ++ maskSelect rest (m / 2)

/-- The entries of a list whose (`base`-offset) positions lie in the index
set `s`. -/
def selectMem (s : List ℕ) : List α → ℕ → List α
  | [], _ => []
  | v :: rest, base => (if base ∈ s then [v] else []) ++ selectMem s rest (base + 1)

/-- `multisubset2(numbers, subsets, adder, zero)` from `multicombs.py`.
It is total: subsets are only membership-tested, and the two table lookups
are always in range (`getD` stands for Python's subscripts there). -/
def multisubset2 (adder : α → α → α) (zero : α) (numbers0 : List α)
    (subsets : List (List ℕ)) : List α :=
  let p := 1 + floorLn (subsets.length + 1)
  let numbers := padToMultiple zero numbers0 p
  let power_sets := (chunks p numbers).map (powerSet adder zero)
  subsets.map fun subset =>
    power_sets.enum.foldl (fun o e => adder o (e.2.getD (maskOf subset (e.1 * p) p) zero)) zero

/-- `len(bin(f)) - 2`: the bit length of `f` as Python computes it, with
`bin(0) = '0b0'` giving `1` and the sign of a negative number adding `1`. -/
def pyBinLen (f : ℤ) : ℕ :=
  if f = 0 then 1 else if 0 < f then natBitLen f.toNat else natBitLen f.natAbs + 1

/-- `max(len(bin(f)) - 2 for f in factors)` (the `0` seed is harmless: every
`pyBinLen` is at least `1`, and the caller guards the empty case). -/
def pyMaxbitlen (factors : List ℤ) : ℕ := (factors.map pyBinLen).foldl max 0

/-- Truthiness of Python's `f & (1 << j)`: bit `j` of `f` in two's complement,
i.e. floored `f >> j` is odd. -/
def pyTestBit (f : ℤ) (j : ℕ) : Bool := f.fdiv (2 ^ j) % 2 == 1

/-- `{i for i in range(len(numbers)) if factors[i] & (1 << j)}`, raising
`IndexError` at the first `i` beyond `factors` (ascending order, as Python). -/
def subsetForBit (factors : List ℤ) (j : ℕ) : List ℕ → Except MErr (List ℕ)
  | [] => .ok []
  | i :: is =>
    match factors[i]? with
    | none => .error .indexError
    | some f =>
      match subsetForBit factors j is with
      | .ok rest => .ok (if pyTestBit f j then i :: rest else rest)
      | .error e => .error e

/-- The list of per-bit subsets built by `lincomb`. -/
def lincombSubsets (factors : List ℤ) (n maxbitlen : ℕ) : Except MErr (List (List ℕ)) :=
  (List.range (maxbitlen + 1)).mapM fun j => subsetForBit factors j (List.range n)

/-- The recombination loop `for i in range(len(subsets)-1, -1, -1):
o = adder(adder(o, o), subset_sums[i])`; `loopDown k o` runs the iterations
for indices `k-1, …, 0` starting from accumulator `o`. (`getD` stands for the
subscript `subset_sums[i]`, which is always in range.) -/
def loopDown (adder : α → α → α) (zero : α) (sums : List α) : ℕ → α → α
  | 0, o => o
  | k + 1, o => loopDown adder zero sums k (adder (adder o o) (sums.getD k zero))

/-- The recombination loop instrumented with an adder-call counter: each of
the two adder call sites of an iteration increments the counter once,
mirroring the call counting of the source's `make_mock_adder` (without its
`if x and y` filter, so every call is counted). -/
def loopDownCount (adder : α → α → α) (zero : α) (sums : List α) : ℕ → α → ℕ → α × ℕ
  | 0, o, c => (o, c)
  | k + 1, o, c =>
    let d := adder o o
    let c1 := c + 1
    let e := adder d (sums.getD k zero)
    let c2 := c1 + 1
    loopDownCount adder zero sums k e c2

/-- `lincomb(numbers, factors, adder, zero)` from `multicombs.py`.
`max` on an empty `factors` raises `ValueError`; subset construction can
raise `IndexError`; `multisubset`'s exceptions (and its `None`, which Python
would turn into a `TypeError` at `subset_sums[i]`) propagate. -/
def lincomb (adder : α → α → α) (zero : α) (numbers : List α) (factors : List ℤ) :
    Except MErr α :=
  if factors.isEmpty then .error .valueError
  else
    match lincombSubsets factors numbers.length (pyMaxbitlen factors) with
    | .error e => .error e
    | .ok subsets =>
      match multisubset adder zero numbers subsets with
      | .error e => .error e
      | .ok subset_sums => .ok (loopDown adder zero subset_sums subsets.length zero)

/-- The adder-fold `Σ l` of a list of group elements, starting from `zero`. -/
def sumA (adder : α → α → α) (zero : α) (l : List α) : α := l.foldl adder zero

/-- The elements of `numbers` selected by the index list `s`. -/
def subsetVals (zero : α) (numbers : List α) (s : List ℕ) : List α :=
  s.map fun i => numbers.getD i zero

/-- The adder-fold of `numbers` at the indices in `s`. -/
def subsetSumA (adder : α → α → α) (zero : α) (numbers : List α) (s : List ℕ) : α :=
  sumA adder zero (subsetVals zero numbers s)

/-- The naive per-subset sums both solvers are specified against: for each
subset, the adder-fold of the original elements at its (deduplicated) indices. -/
def naiveSums (adder : α → α → α) (zero : α) (numbers : List α)
    (subsets : List (List ℕ)) : List α :=
  subsets.map fun s => subsetSumA adder zero numbers (mkSet s)

/-- `n`-fold repeated addition of `x` (the group's scalar multiplication). -/
def repAdd (adder : α → α → α) (zero : α) (n : ℕ) (x : α) : α :=
  sumA adder zero (List.replicate n x)

/-- The value accumulated by `lincomb`'s recombination loop over the bit
positions below `k`: `Σ_{j<k} 2^j · sums[j]` under repeated addition. -/
def hornerVal (adder : α → α → α) (zero : α) (sums : List α) : ℕ → α
  | 0 => zero
  | k + 1 => adder (hornerVal adder zero sums k)
      (repAdd adder zero (2 ^ k) (sums.getD k zero))

/-- The weighted sum `lincomb` actually computes: each factor contributes its
low `w` bits, i.e. its non-negative residue modulo `2 ^ w`, as the repeated
addition count of its element. -/
def maskedLinSum (adder : α → α → α) (zero : α) (numbers : List α) (factors : List ℤ)
    (w : ℕ) : α :=
  sumA adder zero
    (List.zipWith (fun x f => repAdd adder zero ((f % (2 ^ w)).toNat) x) numbers factors)

/-- Total number of index occurrences across all subsets; bounds the number
of rounds `multisubset` can take. -/
def totalLen (subsets : List (List ℕ)) : ℕ := (subsets.map List.length).sum

/-- The round-loop measure: total size of all outstanding subsets. -/
def msSize (st : MState α) : ℕ := (st.subsets.map fun e => e.2.length).sum

/-- The caller-supplied adder is associative and commutative with identity
`zero` — the abstract-additive-group contract of the spec. -/
structure IsACZ (adder : α → α → α) (zero : α) : Prop where
  assoc : ∀ a b c, adder (adder a b) c = adder a (adder b c)
  comm : ∀ a b, adder a b = adder b a
  zero_add : ∀ a, adder zero a = a

/-- Every index of every subset is a valid position in an `n`-element
collection (the solvers' precondition). -/
def ValidSubsets (subsets : List (List ℕ)) (n : ℕ) : Prop :=
  ∀ s ∈ subsets, ∀ i ∈ s, i < n

/-- The invariant of the greedy solver's round loop, relative to the target
sums `orig` and the output arity `m`: outputs of resolved subsets hold their
final sums, outputs of outstanding subsets are still `zero`, and every
outstanding subset is a duplicate-free list of in-range indices whose current
fold still equals its original target sum. -/
def MsInv (adder : α → α → α) (zero : α) (orig : ℕ → α) (m : ℕ) (st : MState α) : Prop :=
  st.output.length = m ∧
  0 < st.numbers.length ∧
  (st.subsets.map Prod.fst).Nodup ∧
  (∀ k s, (k, s) ∈ st.subsets →
    k < m ∧ s.Nodup ∧ (∀ i ∈ s, i < st.numbers.length) ∧
    st.output.getD k zero = zero ∧
    subsetSumA adder zero st.numbers s = orig k) ∧
  (∀ k, k < m → (∀ s, (k, s) ∉ st.subsets) → st.output.getD k zero = orig k)

section Algebra

variable {α : Type} {adder : α → α → α} {zero : α}

theorem IsACZ.add_zero (h : IsACZ adder zero) (a : α) : adder a zero = a := by
  rw [h.comm]; exact h.zero_add a

/-- Interchange of two adders, from associativity and commutativity. -/
theorem IsACZ.ac4 (h : IsACZ adder zero) (a b c d : α) :
    adder (adder a b) (adder c d) = adder (adder a c) (adder b d) := by
  rw [h.assoc, h.assoc, ← h.assoc b c d, h.comm b c, h.assoc c b d]

theorem adder_rot (h : IsACZ adder zero) (a b c : α) :
    adder c (adder a b) = adder a (adder b c) := by
  rw [h.comm, h.assoc]

theorem foldl_adder (h : IsACZ adder zero) (l : List α) :
    ∀ b, l.foldl adder b = adder b (sumA adder zero l) := by
  induction l with
  | nil => intro b; simp [sumA, h.add_zero]
  | cons x l ih =>
    intro b
    simp only [List.foldl_cons, sumA] at *
    rw [ih (adder b x), ih (adder zero x), h.zero_add, h.assoc]

theorem sumA_nil : sumA adder zero [] = zero := rfl

theorem sumA_cons (h : IsACZ adder zero) (x : α) (l : List α) :
    sumA adder zero (x :: l) = adder x (sumA adder zero l) := by
  have := foldl_adder h l (adder zero x)
  simpa [sumA, h.zero_add] using this

theorem sumA_singleton (h : IsACZ adder zero) (x : α) : sumA adder zero [x] = x := by
  rw [sumA_cons h, sumA_nil, h.add_zero]

theorem sumA_append (h : IsACZ adder zero) (l l' : List α) :
    sumA adder zero (l ++ l') = adder (sumA adder zero l) (sumA adder zero l') := by
  rw [sumA, List.foldl_append, foldl_adder h]; rfl

theorem sumA_perm (h : IsACZ adder zero) {l l' : List α} (p : l.Perm l') :
    sumA adder zero l = sumA adder zero l' := by
  induction p with
  | nil => rfl
  | cons x _ ih => rw [sumA_cons h, sumA_cons h, ih]
  | swap x y l =>
    rw [sumA_cons h, sumA_cons h, sumA_cons h, sumA_cons h, ← h.assoc, ← h.assoc,
      h.comm y x]
  | trans _ _ ih1 ih2 => rw [ih1, ih2]

end Algebra

section MkSet

theorem mkSetInsert_mem {x y : ℕ} {l : List ℕ} :
    y ∈ mkSetInsert x l ↔ y = x ∨ y ∈ l := by
  induction l with
  | nil => simp [mkSetInsert]
  | cons z zs ih =>
    by_cases h1 : x < z
    · simp [mkSetInsert, h1]
    · by_cases h2 : x = z
      · subst h2
        simp only [mkSetInsert, h1, if_neg, if_pos rfl, lt_irrefl, if_false]
        constructor
        · intro hy; exact Or.inr hy
        · rintro (rfl | hy) <;> simp_all
      · simp only [mkSetInsert, if_neg h1, if_neg h2, List.mem_cons, ih]
        tauto

theorem mkSetInsert_sorted (x : ℕ) {l : List ℕ} (hs : l.Sorted (· < ·)) :
    (mkSetInsert x l).Sorted (· < ·) := by
  induction l with
  | nil => simp [mkSetInsert]
  | cons z zs ih =>
    rw [List.sorted_cons] at hs
    by_cases h1 : x < z
    · rw [mkSetInsert, if_pos h1, List.sorted_cons]
      refine ⟨?_, ?_⟩
      · intro b hb
        rcases List.mem_cons.mp hb with rfl | hb
        · exact h1
        · exact h1.trans (hs.1 b hb)
      · rw [List.sorted_cons]; exact hs
    · by_cases h2 : x = z
      · rw [mkSetInsert, if_neg h1, if_pos h2, List.sorted_cons]; exact hs
      · rw [mkSetInsert, if_neg h1, if_neg h2, List.sorted_cons]
        refine ⟨?_, ih hs.2⟩
        intro b hb
        rcases mkSetInsert_mem.mp hb with rfl | hb
        · omega
        · exact hs.1 b hb

theorem mkSet_sorted (l : List ℕ) : (mkSet l).Sorted (· < ·) := by
  induction l with
  | nil => simp [mkSet]
  | cons x xs ih => exact mkSetInsert_sorted x ih

theorem mkSet_mem {x : ℕ} {l : List ℕ} : x ∈ mkSet l ↔ x ∈ l := by
  induction l with
  | nil => simp [mkSet]
  | cons y ys ih =>
    show x ∈ mkSetInsert y (mkSet ys) ↔ _
    rw [mkSetInsert_mem, ih, List.mem_cons]

theorem mkSet_nodup (l : List ℕ) : (mkSet l).Nodup :=
  (mkSet_sorted l).nodup

theorem mkSet_of_sorted {l : List ℕ} (hs : l.Sorted (· < ·)) : mkSet l = l := by
  induction l with
  | nil => rfl
  | cons x xs ih =>
    rw [List.sorted_cons] at hs
    show mkSetInsert x (mkSet xs) = x :: xs
    rw [ih hs.2]
    cases xs with
    | nil => rfl
    | cons y ys => rw [mkSetInsert, if_pos (hs.1 y (List.mem_cons_self y ys))]

end MkSet

section MsLemmas

variable {α : Type} {adder : α → α → α} {zero : α}

theorem subsetVals_append {numbers : List α} {v : α} {s : List ℕ}
    (hv : ∀ i ∈ s, i < numbers.length) :
    subsetVals zero (numbers ++ [v]) s = subsetVals zero numbers s := by
  unfold subsetVals
  apply List.map_congr_left
  intro i hi
  exact List.getD_append _ _ _ _ (hv i hi)

theorem getD_append_self (numbers : List α) (v : α) :
    (numbers ++ [v]).getD numbers.length zero = v := by
  rw [List.getD_eq_getElem?_getD, List.getElem?_append]
  simp

theorem subsetPairs_mem {s : List ℕ} {p : ℕ × ℕ} (hp : p ∈ subsetPairs s) :
    p.1 ∈ s ∧ p.2 ∈ s ∧ p.1 < p.2 := by
  unfold subsetPairs at hp
  simp only [List.mem_flatMap, List.mem_filterMap] at hp
  obtain ⟨x, hx, y, hy, hxy⟩ := hp
  by_cases hlt : x < y
  · rw [if_pos hlt] at hxy
    cases hxy
    exact ⟨hx, hy, hlt⟩
  · rw [if_neg hlt] at hxy
    cases hxy

theorem bump_fst {pc : List ((ℕ × ℕ) × ℕ)} {p q : ℕ × ℕ}
    (hq : q ∈ (bump pc p).map Prod.fst) : q = p ∨ q ∈ pc.map Prod.fst := by
  induction pc with
  | nil =>
    simp only [bump, List.map_cons, List.map_nil, List.mem_singleton] at hq
    exact Or.inl hq
  | cons e rest ih =>
    obtain ⟨e1, e2⟩ := e
    rw [bump] at hq
    by_cases he : e1 = p
    · rw [if_pos he] at hq
      simp only [List.map_cons, List.mem_cons] at hq ⊢
      tauto
    · rw [if_neg he] at hq
      simp only [List.map_cons, List.mem_cons] at hq ⊢
      rcases hq with h1 | h2
      · tauto
      · rcases ih h2 with h | h <;> tauto

theorem foldl_bump_fst : ∀ (ps : List (ℕ × ℕ)) (pc : List ((ℕ × ℕ) × ℕ)) (q : ℕ × ℕ),
    q ∈ ((ps.foldl bump pc).map Prod.fst) → q ∈ ps ∨ q ∈ pc.map Prod.fst := by
  intro ps
  induction ps with
  | nil => intro pc q hq; exact Or.inr hq
  | cons p rest ih =>
    intro pc q hq
    rcases ih (bump pc p) q hq with h1 | h2
    · exact Or.inl (List.mem_cons_of_mem _ h1)
    · rcases bump_fst h2 with rfl | h3
      · exact Or.inl (List.mem_cons_self _ _)
      · exact Or.inr h3

theorem pairCounts_witness :
    ∀ (subsets : List (ℕ × List ℕ)) (pc : List ((ℕ × ℕ) × ℕ)) (q : ℕ × ℕ),
    q ∈ ((subsets.foldl (fun pc e => (subsetPairs e.2).foldl bump pc) pc).map Prod.fst) →
    (∃ k s, (k, s) ∈ subsets ∧ q.1 ∈ s ∧ q.2 ∈ s ∧ q.1 < q.2) ∨ q ∈ pc.map Prod.fst := by
  intro subsets
  induction subsets with
  | nil => intro pc q hq; exact Or.inr hq
  | cons e rest ih =>
    intro pc q hq
    rcases ih _ q hq with ⟨k, s, hks, hq1, hq2, hq3⟩ | h2
    · exact Or.inl ⟨k, s, List.mem_cons_of_mem _ hks, hq1, hq2, hq3⟩
    · rcases foldl_bump_fst _ _ _ h2 with h3 | h4
      · refine Or.inl ⟨e.1, e.2, ?_, (subsetPairs_mem h3).1, (subsetPairs_mem h3).2.1,
          (subsetPairs_mem h3).2.2⟩
        exact List.mem_cons_self _ _
      · exact Or.inr h4

theorem pairCounts_fst {subsets : List (ℕ × List ℕ)} {q : ℕ × ℕ}
    (hq : q ∈ (pairCounts subsets).map Prod.fst) :
    ∃ k s, (k, s) ∈ subsets ∧ q.1 ∈ s ∧ q.2 ∈ s ∧ q.1 < q.2 := by
  rcases pairCounts_witness subsets [] q hq with h | h
  · exact h
  · simp at h

theorem insertPairDesc_perm (pc : List ((ℕ × ℕ) × ℕ)) (p : ℕ × ℕ) :
    ∀ l : List (ℕ × ℕ), (insertPairDesc pc p l).Perm (p :: l) := by
  intro l
  induction l with
  | nil => exact List.Perm.refl _
  | cons q qs ih =>
    by_cases hc : countOf pc p < countOf pc q
    · rw [insertPairDesc, if_pos hc]
      exact (ih.cons q).trans (List.Perm.swap p q qs)
    · rw [insertPairDesc, if_neg hc]

theorem sortPairsDesc_perm (pc : List ((ℕ × ℕ) × ℕ)) :
    ∀ l : List (ℕ × ℕ), (sortPairsDesc pc l).Perm l := by
  intro l
  induction l with
  | nil => exact List.Perm.refl _
  | cons p ps ih =>
    rw [sortPairsDesc]
    exact (insertPairDesc_perm pc p _).trans (ih.cons p)

theorem setAll_length (v : α) :
    ∀ (ks : List ℕ) (out : List α),
    (ks.foldl (fun o k => o.set k v) out).length = out.length := by
  intro ks
  induction ks with
  | nil => intro out; rfl
  | cons k rest ih => intro out; rw [List.foldl_cons, ih, List.length_set]

theorem setAll_getD_not_mem (v : α) :
    ∀ (ks : List ℕ) (out : List α) (j : ℕ), j ∉ ks →
    (ks.foldl (fun o k => o.set k v) out).getD j zero = out.getD j zero := by
  intro ks
  induction ks with
  | nil => intro out j _; rfl
  | cons k rest ih =>
    intro out j hj
    have hkj : k ≠ j := by rintro rfl; exact hj (List.mem_cons_self _ _)
    rw [List.foldl_cons, ih _ _ (fun hm => hj (List.mem_cons_of_mem _ hm)),
      List.getD_eq_getElem?_getD, List.getD_eq_getElem?_getD, List.getElem?_set_ne hkj]

theorem setAll_getD_mem (v : α) :
    ∀ (ks : List ℕ) (out : List α) (j : ℕ), j ∈ ks → j < out.length →
    (ks.foldl (fun o k => o.set k v) out).getD j zero = v := by
  intro ks
  induction ks with
  | nil => intro out j hj; exact absurd hj (List.not_mem_nil j)
  | cons k rest ih =>
    intro out j hj hlen
    rw [List.foldl_cons]
    by_cases hr : j ∈ rest
    · exact ih _ _ hr (by rw [List.length_set]; exact hlen)
    · have hk : j = k := by
        rcases List.mem_cons.mp hj with h | h
        · exact h
        · exact absurd h hr
      subst hk
      rw [setAll_getD_not_mem v rest _ _ hr, List.getD_eq_getElem?_getD,
        List.getElem?_set_self hlen]
      rfl

theorem rewriteSubsets_fst_eq (x y n : ℕ) (v : α) :
    ∀ (subs : List (ℕ × List ℕ)) (out : List α),
    (rewriteSubsets x y n v subs out).1 = subs.filterMap (rwEntry x y n) := by
  intro subs
  induction subs with
  | nil => intro out; rfl
  | cons e rest ih =>
    intro out
    obtain ⟨k, s⟩ := e
    rw [rewriteSubsets, List.filterMap_cons]
    by_cases hmem : x ∈ s ∧ y ∈ s
    · by_cases hemp : (s.erase x).erase y = []
      · have hre : rwEntry x y n (k, s) = none := by
          rw [rwEntry, if_pos hmem]
          simp only [if_pos hemp]
        rw [if_pos hmem, if_pos hemp, hre]
        exact ih _
      · have hre : rwEntry x y n (k, s) =
            some (k, if n ∈ (s.erase x).erase y then (s.erase x).erase y
              else (s.erase x).erase y ++ [n]) := by
          rw [rwEntry, if_pos hmem]
          simp only [if_neg hemp]
        rw [if_pos hmem, if_neg hemp, hre]
        show _ :: (rewriteSubsets x y n v rest out).1 = _
        rw [ih]
    · have hre : rwEntry x y n (k, s) = some (k, s) := by
        rw [rwEntry, if_neg hmem]
      rw [if_neg hmem, hre]
      show _ :: (rewriteSubsets x y n v rest out).1 = _
      rw [ih]

theorem rewriteSubsets_snd_eq (x y n : ℕ) (v : α) :
    ∀ (subs : List (ℕ × List ℕ)) (out : List α),
    (rewriteSubsets x y n v subs out).2 =
      (rwDeleted x y subs).foldl (fun o k => o.set k v) out := by
  intro subs
  induction subs with
  | nil => intro out; rfl
  | cons e rest ih =>
    intro out
    obtain ⟨k, s⟩ := e
    rw [rewriteSubsets, rwDeleted, List.filter_cons]
    by_cases hmem : x ∈ s ∧ y ∈ s
    · by_cases hemp : (s.erase x).erase y = []
      · have hP : (decide (x ∈ (k, s).2 ∧ y ∈ (k, s).2) &&
            (((k, s).2.erase x).erase y).isEmpty) = true := by
          simp [hmem, hemp]
        rw [if_pos hmem, if_pos hemp, if_pos hP, List.map_cons, List.foldl_cons]
        exact ih _
      · have hP : (decide (x ∈ (k, s).2 ∧ y ∈ (k, s).2) &&
            (((k, s).2.erase x).erase y).isEmpty) = false := by
          simp [List.isEmpty_iff, hemp]
        rw [if_pos hmem, if_neg hemp, hP, if_neg Bool.false_ne_true]
        show (rewriteSubsets x y n v rest out).2 = _
        rw [ih, rwDeleted]
    · have hP : (decide (x ∈ (k, s).2 ∧ y ∈ (k, s).2) &&
          (((k, s).2.erase x).erase y).isEmpty) = false := by
        simp [decide_eq_false hmem]
      rw [if_neg hmem, hP, if_neg Bool.false_ne_true]
      show (rewriteSubsets x y n v rest out).2 = _
      rw [ih, rwDeleted]

end MsLemmas

section MergeStep

variable {α : Type} {adder : α → α → α} {zero : α}

theorem key_unique {subs : List (ℕ × List ℕ)} (hnd : (subs.map Prod.fst).Nodup)
    {k : ℕ} {a b : List ℕ} (ha : (k, a) ∈ subs) (hb : (k, b) ∈ subs) : a = b := by
  induction subs with
  | nil => cases ha
  | cons e rest ih =>
    rw [List.map_cons, List.nodup_cons] at hnd
    rcases List.mem_cons.mp ha with rfl | ha' <;> rcases List.mem_cons.mp hb with hb' | hb'
    · cases hb'; rfl
    · exact absurd (List.mem_map_of_mem Prod.fst hb') (by simpa using hnd.1)
    · cases hb'
      exact absurd (List.mem_map_of_mem Prod.fst ha') (by simpa using hnd.1)
    · exact ih hnd.2 ha' hb'

theorem rwEntry_some_fst {x y n : ℕ} {e e' : ℕ × List ℕ}
    (he : rwEntry x y n e = some e') : e'.1 = e.1 := by
  rw [rwEntry] at he
  by_cases hmem : x ∈ e.2 ∧ y ∈ e.2
  · rw [if_pos hmem] at he
    by_cases hemp : (e.2.erase x).erase y = []
    · rw [if_pos hemp] at he
      cases he
    · simp only [if_neg hemp, Option.some.injEq] at he
      rw [← he]
  · rw [if_neg hmem] at he
    cases he; rfl

theorem rwEntry_eq_none_iff {x y n : ℕ} {e : ℕ × List ℕ} :
    rwEntry x y n e = none ↔ (x ∈ e.2 ∧ y ∈ e.2) ∧ (e.2.erase x).erase y = [] := by
  rw [rwEntry]
  by_cases hmem : x ∈ e.2 ∧ y ∈ e.2
  · rw [if_pos hmem]
    by_cases hemp : (e.2.erase x).erase y = []
    · simp [if_pos hemp, hmem, hemp]
    · simp [if_neg hemp, hemp]
  · rw [if_neg hmem]
    simp [hmem]

theorem rwEntry_cases {x y n : ℕ} {e e' : ℕ × List ℕ}
    (he : rwEntry x y n e = some e') :
    (¬(x ∈ e.2 ∧ y ∈ e.2) ∧ e' = e) ∨
    ((x ∈ e.2 ∧ y ∈ e.2) ∧ (e.2.erase x).erase y ≠ [] ∧
      e' = (e.1, if n ∈ (e.2.erase x).erase y then (e.2.erase x).erase y
        else (e.2.erase x).erase y ++ [n])) := by
  rw [rwEntry] at he
  by_cases hmem : x ∈ e.2 ∧ y ∈ e.2
  · rw [if_pos hmem] at he
    by_cases hemp : (e.2.erase x).erase y = []
    · rw [if_pos hemp] at he
      cases he
    · simp only [if_neg hemp, Option.some.injEq] at he
      exact Or.inr ⟨hmem, hemp, he.symm⟩
  · rw [if_neg hmem] at he
    cases he
    exact Or.inl ⟨hmem, rfl⟩

theorem rwEntry_keys_sublist (x y n : ℕ) :
    ∀ subs : List (ℕ × List ℕ),
    ((subs.filterMap (rwEntry x y n)).map Prod.fst).Sublist (subs.map Prod.fst) := by
  intro subs
  induction subs with
  | nil => exact List.Sublist.refl _
  | cons e rest ih =>
    rw [List.filterMap_cons]
    cases hre : rwEntry x y n e with
    | none => exact ih.trans (List.sublist_cons_self _ _)
    | some e' =>
      rw [List.map_cons, List.map_cons, rwEntry_some_fst hre]
      exact ih.cons₂ _

theorem rwDeleted_mem {x y : ℕ} {subs : List (ℕ × List ℕ)} {j : ℕ} :
    j ∈ rwDeleted x y subs ↔
      ∃ s, (j, s) ∈ subs ∧ (x ∈ s ∧ y ∈ s) ∧ (s.erase x).erase y = [] := by
  unfold rwDeleted
  rw [List.mem_map]
  constructor
  · rintro ⟨e, he, rfl⟩
    rw [List.mem_filter] at he
    obtain ⟨he1, he2⟩ := he
    refine ⟨e.2, he1, ?_⟩
    simpa [List.isEmpty_iff] using he2
  · rintro ⟨s, hs, hp, hemp⟩
    refine ⟨(j, s), ?_, rfl⟩
    rw [List.mem_filter]
    exact ⟨hs, by simp [hp, List.isEmpty_iff, hemp]⟩

theorem rwDeleted_subset_keys {x y : ℕ} {subs : List (ℕ × List ℕ)} {j : ℕ}
    (hj : j ∈ rwDeleted x y subs) : j ∈ subs.map Prod.fst := by
  rcases rwDeleted_mem.mp hj with ⟨s, hs, _⟩
  exact List.mem_map_of_mem Prod.fst hs

theorem rwSize (x y n : ℕ) (hxy : x ≠ y) :
    ∀ subs : List (ℕ × List ℕ),
    (((subs.filterMap (rwEntry x y n)).map fun e => e.2.length).sum ≤
      ((subs.map fun e => e.2.length)).sum) ∧
    ((∃ k s, (k, s) ∈ subs ∧ x ∈ s ∧ y ∈ s) →
      ((subs.filterMap (rwEntry x y n)).map fun e => e.2.length).sum <
        ((subs.map fun e => e.2.length)).sum) := by
  intro subs
  induction subs with
  | nil =>
    refine ⟨le_refl _, ?_⟩
    rintro ⟨k, s, hk, -, -⟩
    cases hk
  | cons e rest ih =>
    have entry_le : ∀ e' : ℕ × List ℕ, rwEntry x y n e = some e' →
        e'.2.length ≤ e.2.length ∧ ((x ∈ e.2 ∧ y ∈ e.2) → e'.2.length < e.2.length) := by
      intro e' hre
      rcases rwEntry_cases hre with ⟨hnm, rfl⟩ | ⟨hmem, hemp, heq⟩
      · exact ⟨le_refl _, fun hc => absurd hc hnm⟩
      · have h1 : (e.2.erase x).length = e.2.length - 1 := List.length_erase_of_mem hmem.1
        have hyx : y ∈ e.2.erase x := (List.mem_erase_of_ne hxy.symm).mpr hmem.2
        have h2 : ((e.2.erase x).erase y).length = (e.2.erase x).length - 1 :=
          List.length_erase_of_mem hyx
        have h3 : 1 ≤ (e.2.erase x).length :=
          List.length_pos.mpr (by rintro hh; rw [hh] at hyx; cases hyx)
        have h4 : e'.2 = (if n ∈ (e.2.erase x).erase y then (e.2.erase x).erase y
            else (e.2.erase x).erase y ++ [n]) := congrArg Prod.snd heq
        have hlt : e'.2.length < e.2.length := by
          by_cases hn : n ∈ (e.2.erase x).erase y
          · rw [h4, if_pos hn]; omega
          · rw [h4, if_neg hn, List.length_append, List.length_singleton]; omega
        exact ⟨le_of_lt hlt, fun _ => hlt⟩
    rw [List.filterMap_cons]
    cases hre : rwEntry x y n e with
    | none =>
      have hboth := rwEntry_eq_none_iff.mp hre
      have hpos : 0 < e.2.length :=
        List.length_pos.mpr (by rintro hh; rw [hh] at hboth; cases hboth.1.1)
      rw [List.map_cons, List.sum_cons]
      refine ⟨le_trans ih.1 (Nat.le_add_left _ _), ?_⟩
      intro _
      exact lt_of_le_of_lt ih.1 (Nat.lt_add_of_pos_left hpos)
    | some e' =>
      rw [List.map_cons, List.map_cons, List.sum_cons, List.sum_cons]
      have hle := entry_le e' hre
      refine ⟨Nat.add_le_add hle.1 ih.1, ?_⟩
      rintro ⟨k, s, hk, hx, hy⟩
      rcases List.mem_cons.mp hk with heq | hk'
      · cases heq
        exact Nat.add_lt_add_of_lt_of_le (hle.2 ⟨hx, hy⟩) ih.1
      · exact Nat.add_lt_add_of_le_of_lt hle.1 (ih.2 ⟨k, s, hk', hx, hy⟩)

theorem sumA_erase2 (h : IsACZ adder zero) {numbers : List α} {s : List ℕ} {x y : ℕ}
    (hxny : x ≠ y) (hx : x ∈ s) (hy : y ∈ s) :
    subsetSumA adder zero numbers s =
      adder (numbers.getD x zero) (adder (numbers.getD y zero)
        (subsetSumA adder zero numbers ((s.erase x).erase y))) := by
  have hy' : y ∈ s.erase x := (List.mem_erase_of_ne hxny.symm).mpr hy
  have p1 : s.Perm (x :: s.erase x) := List.perm_cons_erase hx
  have p2 : (s.erase x).Perm (y :: (s.erase x).erase y) := List.perm_cons_erase hy'
  have hp : s.Perm (x :: y :: (s.erase x).erase y) := p1.trans (p2.cons x)
  unfold subsetSumA subsetVals
  rw [sumA_perm h (hp.map fun i => numbers.getD i zero), List.map_cons, List.map_cons,
    sumA_cons h, sumA_cons h]

theorem mergeStep_inv (h : IsACZ adder zero) {orig : ℕ → α} {m : ℕ}
    {numbers : List α} {subs : List (ℕ × List ℕ)} {out : List α} {x y : ℕ}
    (hInv : MsInv adder zero orig m ⟨numbers, subs, out⟩)
    (hxy : x < y) (hylen : y < numbers.length) {v : α}
    (hv : v = adder (numbers.getD x zero) (numbers.getD y zero)) :
    MsInv adder zero orig m
      ⟨numbers ++ [v], (rewriteSubsets x y numbers.length v subs out).1,
        (rewriteSubsets x y numbers.length v subs out).2⟩ ∧
    msSize ⟨numbers ++ [v], (rewriteSubsets x y numbers.length v subs out).1,
        (rewriteSubsets x y numbers.length v subs out).2⟩ ≤ msSize ⟨numbers, subs, out⟩ ∧
    ((∃ k s, (k, s) ∈ subs ∧ x ∈ s ∧ y ∈ s) →
      msSize ⟨numbers ++ [v], (rewriteSubsets x y numbers.length v subs out).1,
        (rewriteSubsets x y numbers.length v subs out).2⟩ < msSize ⟨numbers, subs, out⟩) := by
  obtain ⟨hlen, hpos, hknd, hent, hoth⟩ := hInv
  dsimp only at hlen hpos hknd hent hoth
  have hxny : x ≠ y := Nat.ne_of_lt hxy
  have hxlen : x < numbers.length := lt_trans hxy hylen
  rw [rewriteSubsets_fst_eq, rewriteSubsets_snd_eq]
  have hDmem : ∀ j ∈ rwDeleted x y subs, j < m := by
    intro j hj
    rcases rwDeleted_mem.mp hj with ⟨s, hs, -, -⟩
    exact (hent j s hs).1
  have hsurv : ∀ {k : ℕ} {s' : List ℕ},
      (k, s') ∈ subs.filterMap (rwEntry x y numbers.length) → k ∉ rwDeleted x y subs := by
    intro k s' hk hD
    rcases List.mem_filterMap.mp hk with ⟨e, he, hre⟩
    obtain ⟨k0, s0⟩ := e
    have hk0 : k0 = k := by have := rwEntry_some_fst hre; simpa using this.symm
    subst hk0
    rcases rwDeleted_mem.mp hD with ⟨s1, hs1, hp1, hemp1⟩
    have hss : s0 = s1 := key_unique hknd he hs1
    subst hss
    rw [rwEntry_eq_none_iff.mpr ⟨hp1, hemp1⟩] at hre
    cases hre
  have hout'len :
      ((rwDeleted x y subs).foldl (fun o k => o.set k v) out).length = m := by
    rw [setAll_length]; exact hlen
  have hout'_not : ∀ j, j ∉ rwDeleted x y subs →
      ((rwDeleted x y subs).foldl (fun o k => o.set k v) out).getD j zero =
        out.getD j zero := fun j hj => setAll_getD_not_mem v _ out j hj
  have hout'_mem : ∀ j ∈ rwDeleted x y subs,
      ((rwDeleted x y subs).foldl (fun o k => o.set k v) out).getD j zero = v :=
    fun j hj => setAll_getD_mem v _ out j hj (by rw [hlen]; exact hDmem j hj)
  refine ⟨⟨hout'len, ?_, ?_, ?_, ?_⟩, ?_, ?_⟩
  · dsimp only
    rw [List.length_append]
    omega
  · exact List.Nodup.sublist (rwEntry_keys_sublist x y numbers.length subs) hknd
  · intro k s' hk
    dsimp only at hk ⊢
    rcases List.mem_filterMap.mp hk with ⟨e, he, hre⟩
    obtain ⟨k0, s0⟩ := e
    obtain rfl : k0 = k := by have := rwEntry_some_fst hre; simpa using this.symm
    have hbase := hent k0 s0 he
    rcases rwEntry_cases hre with ⟨hnm, heq⟩ | ⟨hmem, hemp, heq⟩
    · have hs' : s' = s0 := by cases heq; rfl
      subst hs'
      refine ⟨hbase.1, hbase.2.1, ?_, ?_, ?_⟩
      · intro i hi
        have := hbase.2.2.1 i hi
        simp only [List.length_append, List.length_singleton]
        omega
      · rw [hout'_not k0 (hsurv hk)]; exact hbase.2.2.2.1
      · unfold subsetSumA
        rw [subsetVals_append hbase.2.2.1]
        exact hbase.2.2.2.2
    · have hn_not : numbers.length ∉ (s0.erase x).erase y := by
        intro hn
        have : numbers.length ∈ s0 := List.erase_subset _ _ (List.erase_subset _ _ hn)
        exact absurd (hbase.2.2.1 _ this) (lt_irrefl _)
      have hs' : s' = (s0.erase x).erase y ++ [numbers.length] := by
        cases heq
        rw [if_neg hn_not]
      subst hs'
      have her2 : ∀ i ∈ (s0.erase x).erase y, i < numbers.length := fun i hi =>
        hbase.2.2.1 i (List.erase_subset _ _ (List.erase_subset _ _ hi))
      refine ⟨hbase.1, ?_, ?_, ?_, ?_⟩
      · refine List.Nodup.append ((hbase.2.1.erase x).erase y) (List.nodup_singleton _) ?_
        intro a ha hb
        rw [List.mem_singleton] at hb
        subst hb
        exact absurd (her2 _ ha) (lt_irrefl _)
      · intro i hi
        simp only [List.length_append, List.length_singleton]
        rcases List.mem_append.mp hi with hi' | hi'
        · have := her2 i hi'; omega
        · rw [List.mem_singleton] at hi'; omega
      · rw [hout'_not k0 (hsurv hk)]; exact hbase.2.2.2.1
      · show sumA adder zero (List.map (fun i => (numbers ++ [v]).getD i zero)
            ((s0.erase x).erase y ++ [numbers.length])) = orig k0
        have hSv : List.map (fun i => (numbers ++ [v]).getD i zero) ((s0.erase x).erase y) =
            subsetVals zero numbers ((s0.erase x).erase y) := subsetVals_append her2
        rw [List.map_append, List.map_singleton, getD_append_self, sumA_append h,
          sumA_singleton h, hSv, hv, ← hbase.2.2.2.2,
          sumA_erase2 h hxny hmem.1 hmem.2]
        exact adder_rot h _ _ _
  · intro k hkm hknot
    dsimp only at hknot ⊢
    by_cases hmemk : ∃ s, (k, s) ∈ subs
    · obtain ⟨s, hs⟩ := hmemk
      cases hre : rwEntry x y numbers.length (k, s) with
      | some e' =>
        have hmm : (k, e'.2) ∈ subs.filterMap (rwEntry x y numbers.length) := by
          have h1 : e' ∈ subs.filterMap (rwEntry x y numbers.length) :=
            List.mem_filterMap.mpr ⟨(k, s), hs, hre⟩
          have he1 : e'.1 = k := by simpa using rwEntry_some_fst hre
          rw [← he1]
          exact h1
        exact absurd hmm (hknot e'.2)
      | none =>
        have hboth := rwEntry_eq_none_iff.mp hre
        have hD : k ∈ rwDeleted x y subs :=
          rwDeleted_mem.mpr ⟨s, hs, ⟨hboth.1.1, hboth.1.2⟩, hboth.2⟩
        rw [hout'_mem k hD, ← (hent k s hs).2.2.2.2,
          sumA_erase2 h hxny hboth.1.1 hboth.1.2, hboth.2]
        have hz : subsetSumA adder zero numbers ([] : List ℕ) = zero := rfl
        rw [hz, h.add_zero, hv]
    · push_neg at hmemk
      have hnD : k ∉ rwDeleted x y subs := by
        intro hD
        rcases rwDeleted_mem.mp hD with ⟨s, hs, -, -⟩
        exact hmemk s hs
      rw [hout'_not k hnD]
      exact hoth k hkm hmemk
  · simp only [msSize]
    exact (rwSize x y numbers.length hxny subs).1
  · intro hw
    simp only [msSize]
    exact (rwSize x y numbers.length hxny subs).2 hw

end MergeStep

section RoundLoop

variable {α : Type} {adder : α → α → α} {zero : α}

theorem foldIndexes_spec (h : IsACZ adder zero) {numbers : List α} {k : ℕ} :
    ∀ (s : List ℕ) (out : List α), (∀ i ∈ s, i < numbers.length) → k < out.length →
    ∃ out', foldIndexes adder zero numbers k s out = .ok out' ∧
      out'.length = out.length ∧
      out'.getD k zero = adder (out.getD k zero) (subsetSumA adder zero numbers s) ∧
      ∀ j, j ≠ k → out'.getD j zero = out.getD j zero := by
  intro s
  induction s with
  | nil =>
    intro out hval hk
    refine ⟨out, rfl, rfl, ?_, fun j _ => rfl⟩
    have hz : subsetSumA adder zero numbers ([] : List ℕ) = zero := rfl
    rw [hz, h.add_zero]
  | cons i is ih =>
    intro out hval hk
    have hi : i < numbers.length := hval i (List.mem_cons_self _ _)
    rw [foldIndexes, List.getElem?_eq_getElem hi]
    have hk1 : k < (out.set k (adder (out.getD k zero) numbers[i])).length := by
      rw [List.length_set]; exact hk
    obtain ⟨out', heq, hlen, hkval, hother⟩ :=
      ih (out.set k (adder (out.getD k zero) numbers[i]))
        (fun j hj => hval j (List.mem_cons_of_mem _ hj)) hk1
    refine ⟨out', heq, by rw [hlen, List.length_set], ?_, ?_⟩
    · rw [hkval]
      have hsetk : (out.set k (adder (out.getD k zero) numbers[i])).getD k zero =
          adder (out.getD k zero) numbers[i] := by
        rw [List.getD_eq_getElem?_getD, List.getElem?_set_self hk]
        rfl
      rw [hsetk]
      have hcons : subsetSumA adder zero numbers (i :: is) =
          adder (numbers.getD i zero) (subsetSumA adder zero numbers is) := by
        unfold subsetSumA subsetVals
        rw [List.map_cons, sumA_cons h]
      rw [hcons, List.getD_eq_getElem _ _ hi, h.assoc]
    · intro j hj
      rw [hother j hj, List.getD_eq_getElem?_getD, List.getElem?_set_ne (Ne.symm hj),
        ← List.getD_eq_getElem?_getD]

theorem finishOutput_spec (h : IsACZ adder zero) {numbers : List α} :
    ∀ (subs : List (ℕ × List ℕ)) (out : List α),
    (subs.map Prod.fst).Nodup →
    (∀ k s, (k, s) ∈ subs → k < out.length ∧ (∀ i ∈ s, i < numbers.length)) →
    ∃ out', finishOutput adder zero numbers subs out = .ok out' ∧
      out'.length = out.length ∧
      (∀ k s, (k, s) ∈ subs →
        out'.getD k zero = adder (out.getD k zero) (subsetSumA adder zero numbers s)) ∧
      (∀ j, j ∉ subs.map Prod.fst → out'.getD j zero = out.getD j zero) := by
  intro subs
  induction subs with
  | nil =>
    intro out _ _
    exact ⟨out, rfl, rfl, fun k s hk => absurd hk (List.not_mem_nil _), fun j _ => rfl⟩
  | cons e rest ih =>
    intro out hnd hval
    obtain ⟨k, s⟩ := e
    rw [List.map_cons, List.nodup_cons] at hnd
    have hke := hval k s (List.mem_cons_self _ _)
    obtain ⟨out1, heq1, hlen1, hk1, hother1⟩ := foldIndexes_spec h s out hke.2 hke.1
    have hval1 : ∀ k' s', (k', s') ∈ rest → k' < out1.length ∧ ∀ i ∈ s', i < numbers.length := by
      intro k' s' hk'
      have := hval k' s' (List.mem_cons_of_mem _ hk')
      exact ⟨by rw [hlen1]; exact this.1, this.2⟩
    obtain ⟨out', heq, hlen, hmem, hnmem⟩ := ih out1 hnd.2 hval1
    rw [finishOutput, heq1]
    have hkrest : k ∉ rest.map Prod.fst := by
      intro hc; exact hnd.1 hc
    refine ⟨out', heq, by rw [hlen, hlen1], ?_, ?_⟩
    · intro k' s' hk'
      rcases List.mem_cons.mp hk' with hh | hh
      · injection hh with h1 h2
        subst h1
        subst h2
        rw [hnmem k' hkrest, hk1]
      · have hne : k' ≠ k := by
          rintro rfl
          exact hkrest (List.mem_map_of_mem Prod.fst hh)
        rw [hmem k' s' hh, hother1 k' hne]
    · intro j hj
      rw [List.map_cons] at hj
      have hj1 : j ∉ rest.map Prod.fst := fun hc => hj (List.mem_cons_of_mem _ hc)
      have hjk : j ≠ k := fun hc => hj (hc ▸ List.mem_cons_self _ _)
      rw [hnmem j hj1, hother1 j hjk]

theorem processPairs_spec (h : IsACZ adder zero) {orig : ℕ → α} {m : ℕ} :
    ∀ (pairs : List (ℕ × ℕ)) (used : List ℕ) (numbers : List α)
      (subs : List (ℕ × List ℕ)) (out : List α),
    MsInv adder zero orig m ⟨numbers, subs, out⟩ →
    (∀ p ∈ pairs, p.1 < p.2 ∧ p.2 < numbers.length) →
    ∃ st' : MState α,
      processPairs adder pairs used numbers subs out =
        .ok (st'.numbers, st'.subsets, st'.output) ∧
      MsInv adder zero orig m st' ∧ msSize st' ≤ msSize ⟨numbers, subs, out⟩ ∧
      numbers.length ≤ st'.numbers.length := by
  intro pairs
  induction pairs with
  | nil =>
    intro used numbers subs out hInv hp
    exact ⟨⟨numbers, subs, out⟩, rfl, hInv, le_refl _, le_refl _⟩
  | cons p rest ih =>
    intro used numbers subs out hInv hp
    obtain ⟨x, y⟩ := p
    rw [processPairs]
    by_cases hu : x ∈ used ∨ y ∈ used
    · rw [if_pos hu]
      exact ih used numbers subs out hInv fun q hq => hp q (List.mem_cons_of_mem _ hq)
    · rw [if_neg hu]
      have hxy := (hp (x, y) (List.mem_cons_self _ _)).1
      have hylen := (hp (x, y) (List.mem_cons_self _ _)).2
      have hxlen : x < numbers.length := lt_trans hxy hylen
      rw [List.getElem?_eq_getElem hxlen, List.getElem?_eq_getElem hylen]
      dsimp only
      have hv : adder numbers[x] numbers[y] =
          adder (numbers.getD x zero) (numbers.getD y zero) := by
        rw [List.getD_eq_getElem _ _ hxlen, List.getD_eq_getElem _ _ hylen]
      obtain ⟨hInv', hle, -⟩ := mergeStep_inv h hInv hxy hylen hv
      have hp' : ∀ q ∈ rest, q.1 < q.2 ∧
          q.2 < (numbers ++ [adder numbers[x] numbers[y]]).length := by
        intro q hq
        have := hp q (List.mem_cons_of_mem _ hq)
        rw [List.length_append, List.length_singleton]
        exact ⟨this.1, by omega⟩
      obtain ⟨st', heq, hInv'', hsz, hnlen⟩ := ih (x :: y :: used) _ _ _ hInv' hp'
      refine ⟨st', heq, hInv'', le_trans hsz hle, ?_⟩
      refine le_trans ?_ hnlen
      rw [List.length_append, List.length_singleton]
      omega

theorem msRound_spec (h : IsACZ adder zero) {orig : ℕ → α} {m : ℕ} {st : MState α}
    (hInv : MsInv adder zero orig m st) :
    (∃ out, msRound adder zero st = .ok (.inl out) ∧ out.length = m ∧
      ∀ k, k < m → out.getD k zero = orig k) ∨
    (∃ st', msRound adder zero st = .ok (.inr st') ∧ MsInv adder zero orig m st' ∧
      msSize st' < msSize st) := by
  obtain ⟨st_numbers, st_subsets, st_output⟩ := st
  obtain ⟨hlen, hpos, hknd, hent, hoth⟩ := hInv
  dsimp only at hlen hpos hknd hent hoth
  rw [msRound]
  dsimp only
  rw [if_neg (by omega)]
  have hpairs_wit : ∀ p ∈ (sortPairsDesc (pairCounts st_subsets)
      ((pairCounts st_subsets).map Prod.fst)).take
      (st_numbers.length * floorLn st_numbers.length),
      ∃ k s, (k, s) ∈ st_subsets ∧ p.1 ∈ s ∧ p.2 ∈ s ∧ p.1 < p.2 := by
    intro p hp
    have h1 : p ∈ sortPairsDesc (pairCounts st_subsets)
        ((pairCounts st_subsets).map Prod.fst) := List.take_subset _ _ hp
    have h2 : p ∈ (pairCounts st_subsets).map Prod.fst :=
      (sortPairsDesc_perm _ _).subset h1
    exact pairCounts_fst h2
  cases hemp : ((sortPairsDesc (pairCounts st_subsets)
      ((pairCounts st_subsets).map Prod.fst)).take
      (st_numbers.length * floorLn st_numbers.length)).isEmpty with
  | true =>
    rw [if_pos rfl]
    have hval : ∀ k s, (k, s) ∈ st_subsets →
        k < st_output.length ∧ ∀ i ∈ s, i < st_numbers.length := by
      intro k s hk
      have := hent k s hk
      exact ⟨by rw [hlen]; exact this.1, this.2.2.1⟩
    obtain ⟨out', heq, hlen', hmem, hnmem⟩ := finishOutput_spec h st_subsets st_output hknd hval
    rw [heq]
    left
    refine ⟨out', rfl, by rw [hlen', hlen], ?_⟩
    intro k hk
    by_cases hkk : k ∈ st_subsets.map Prod.fst
    · rcases List.mem_map.mp hkk with ⟨e, he, hef⟩
      obtain ⟨k0, s⟩ := e
      cases hef
      have hb := hent k0 s he
      rw [hmem k0 s he, hb.2.2.2.1, h.zero_add]
      exact hb.2.2.2.2
    · rw [hnmem k hkk]
      refine hoth k hk ?_
      intro s hs
      exact hkk (List.mem_map_of_mem Prod.fst hs)
  | false =>
    rw [if_neg (by simp)]
    cases hps : (sortPairsDesc (pairCounts st_subsets)
        ((pairCounts st_subsets).map Prod.fst)).take
        (st_numbers.length * floorLn st_numbers.length) with
    | nil => rw [hps] at hemp; simp at hemp
    | cons hd tl =>
      obtain ⟨x, y⟩ := hd
      have hwit := hpairs_wit (x, y) (by rw [hps]; exact List.mem_cons_self _ _)
      obtain ⟨k0, s0, hk0, hx0, hy0, hxy⟩ := hwit
      have hylen : y < st_numbers.length := (hent k0 s0 hk0).2.2.1 y hy0
      have hxlen : x < st_numbers.length := lt_trans hxy hylen
      rw [processPairs, if_neg (by simp), List.getElem?_eq_getElem hxlen,
        List.getElem?_eq_getElem hylen]
      dsimp only
      have hv : adder st_numbers[x] st_numbers[y] =
          adder (st_numbers.getD x zero) (st_numbers.getD y zero) := by
        rw [List.getD_eq_getElem _ _ hxlen, List.getD_eq_getElem _ _ hylen]
      have hInv0 : MsInv adder zero orig m ⟨st_numbers, st_subsets, st_output⟩ :=
        ⟨hlen, hpos, hknd, hent, hoth⟩
      obtain ⟨hInv', hle, hstrict⟩ := mergeStep_inv h hInv0 hxy hylen hv
      have hlt : msSize ⟨st_numbers ++ [adder st_numbers[x] st_numbers[y]],
          (rewriteSubsets x y st_numbers.length (adder st_numbers[x] st_numbers[y])
            st_subsets st_output).1,
          (rewriteSubsets x y st_numbers.length (adder st_numbers[x] st_numbers[y])
            st_subsets st_output).2⟩ < msSize ⟨st_numbers, st_subsets, st_output⟩ :=
        hstrict ⟨k0, s0, hk0, hx0, hy0⟩
      have hp' : ∀ q ∈ tl, q.1 < q.2 ∧
          q.2 < (st_numbers ++ [adder st_numbers[x] st_numbers[y]]).length := by
        intro q hq
        have hq2 := hpairs_wit q (by rw [hps]; exact List.mem_cons_of_mem _ hq)
        obtain ⟨k1, s1, hk1, hq1, hq2', hq3⟩ := hq2
        rw [List.length_append, List.length_singleton]
        exact ⟨hq3, by have := (hent k1 s1 hk1).2.2.1 q.2 hq2'; omega⟩
      obtain ⟨st', heq, hInv'', hsz, -⟩ :=
        processPairs_spec h tl (x :: y :: []) _ _ _ hInv' hp'
      rw [heq]
      right
      exact ⟨⟨st'.numbers, st'.subsets, st'.output⟩, rfl, hInv'',
        lt_of_le_of_lt hsz hlt⟩

theorem msLoop_spec (h : IsACZ adder zero) {orig : ℕ → α} {m : ℕ} :
    ∀ (fuel : ℕ) (st : MState α), MsInv adder zero orig m st → msSize st < fuel →
    ∃ out, msLoop adder zero fuel st = .ok out ∧ out.length = m ∧
      ∀ k, k < m → out.getD k zero = orig k := by
  intro fuel
  induction fuel with
  | zero => intro st _ hsz; omega
  | succ fuel ih =>
    intro st hInv hsz
    rw [msLoop]
    rcases msRound_spec h hInv with ⟨out, heq, hl, hval⟩ | ⟨st', heq, hInv', hlt⟩
    · rw [heq]
      exact ⟨out, rfl, hl, hval⟩
    · rw [heq]
      exact ih st' hInv' (by omega)

end RoundLoop

section MsMaster

variable {α : Type} {adder : α → α → α} {zero : α}

theorem getD_replicate (m k : ℕ) : (List.replicate m zero).getD k zero = zero := by
  rw [List.getD_eq_getElem?_getD, List.getElem?_replicate]
  by_cases h : k < m
  · rw [if_pos h]; rfl
  · rw [if_neg h]; rfl

theorem mkSetInsert_length_le (x : ℕ) :
    ∀ l : List ℕ, (mkSetInsert x l).length ≤ l.length + 1 := by
  intro l
  induction l with
  | nil => simp [mkSetInsert]
  | cons y ys ih =>
    rw [mkSetInsert]
    by_cases h1 : x < y
    · rw [if_pos h1]; simp
    · rw [if_neg h1]
      by_cases h2 : x = y
      · rw [if_pos h2]; simp
      · rw [if_neg h2]
        simp only [List.length_cons]
        omega

theorem mkSet_length_le : ∀ l : List ℕ, (mkSet l).length ≤ l.length := by
  intro l
  induction l with
  | nil => simp [mkSet]
  | cons x xs ih =>
    show (mkSetInsert x (mkSet xs)).length ≤ xs.length + 1
    have := mkSetInsert_length_le x (mkSet xs)
    omega

/-- Correctness of the greedy pairwise solver: on a non-empty element list,
subsets of valid indices, any associative commutative adder with identity,
and total subset size within the source's 9999999-round cap, `multisubset`
returns exactly the naive per-subset folds. -/
theorem multisubset_ok (h : IsACZ adder zero) {numbers : List α} {subsets : List (List ℕ)}
    (hne : numbers ≠ []) (hvalid : ValidSubsets subsets numbers.length)
    (hsz : totalLen subsets < 9999999) :
    multisubset adder zero numbers subsets = .ok (naiveSums adder zero numbers subsets) := by
  have hpos : 0 < numbers.length := List.length_pos.mpr hne
  have hInv : MsInv adder zero
      (fun k => subsetSumA adder zero numbers (mkSet (subsets.getD k []))) subsets.length
      ⟨numbers, (subsets.map mkSet).enum, List.replicate subsets.length zero⟩ := by
    refine ⟨by simp, hpos, ?_, ?_, ?_⟩
    · dsimp only
      rw [List.enum_map_fst]
      exact List.nodup_range _
    · intro k s hk
      dsimp only at hk ⊢
      have hks : (subsets.map mkSet)[k]? = some s := by
        have := List.mem_enum_iff_getElem?.mp hk
        simpa using this
      rw [List.getElem?_map] at hks
      cases hsub : subsets[k]? with
      | none => rw [hsub] at hks; cases hks
      | some t =>
        rw [hsub] at hks
        have hst : s = mkSet t := by cases hks; rfl
        have hklen : k < subsets.length := by
          by_contra hc
          rw [List.getElem?_eq_none (by omega)] at hsub
          cases hsub
        have htmem : t ∈ subsets := List.getElem?_mem hsub
        have htD : subsets.getD k [] = t := by
          rw [List.getD_eq_getElem?_getD, hsub]
          rfl
        refine ⟨hklen, ?_, ?_, getD_replicate _ _, ?_⟩
        · rw [hst]; exact mkSet_nodup t
        · intro i hi
          rw [hst] at hi
          exact hvalid t htmem i (mkSet_mem.mp hi)
        · rw [hst, htD]
    · intro k hk hnone
      exfalso
      have hk2 : k < (subsets.map mkSet).length := by simpa using hk
      have hmem : (k, (subsets.map mkSet)[k]) ∈ (subsets.map mkSet).enum := by
        rw [List.mem_enum_iff_getElem?]
        exact List.getElem?_eq_getElem hk2
      exact hnone _ hmem
  have hsz0 : msSize
      ⟨numbers, (subsets.map mkSet).enum, List.replicate subsets.length zero⟩ < 9999999 := by
    refine lt_of_le_of_lt ?_ hsz
    show (((subsets.map mkSet).enum.map fun e => e.2.length)).sum ≤ totalLen subsets
    have h1 : ((subsets.map mkSet).enum.map fun e : ℕ × List ℕ => e.2.length) =
        (((subsets.map mkSet).enum.map Prod.snd).map List.length) := by
      rw [List.map_map]
      rfl
    rw [h1, List.enum_map_snd, List.map_map]
    exact List.sum_le_sum fun t _ => mkSet_length_le t
  obtain ⟨out, heq, hlen, hval⟩ := msLoop_spec h 9999999 _ hInv hsz0
  have hout : out = naiveSums adder zero numbers subsets := by
    apply List.ext_getElem
    · rw [hlen]
      unfold naiveSums
      rw [List.length_map]
    · intro n h1 h2
      have hn : n < subsets.length := by rw [hlen] at h1; exact h1
      have e1 : out[n] = out.getD n zero := (List.getD_eq_getElem out zero h1).symm
      rw [e1, hval n hn]
      unfold naiveSums
      rw [List.getElem_map]
      rw [List.getD_eq_getElem _ _ hn]
  rw [multisubset, heq, hout]

end MsMaster

section Ms2

variable {α : Type} {adder : α → α → α} {zero : α}

theorem powerSet_append (chunk : List α) (v : α) :
    powerSet adder zero (chunk ++ [v]) =
      powerSet adder zero chunk ++ (powerSet adder zero chunk).map fun n => adder n v := by
  unfold powerSet
  rw [List.foldl_append]
  rfl

theorem powerSet_length (chunk : List α) :
    (powerSet adder zero chunk).length = 2 ^ chunk.length := by
  induction chunk using List.reverseRecOn with
  | nil => rfl
  | append_singleton chunk v ih =>
    rw [powerSet_append, List.length_append, List.length_map, ih, List.length_append,
      List.length_singleton, pow_succ]
    omega

theorem maskSelect_append (l1 l2 : List α) :
    ∀ m : ℕ, maskSelect (l1 ++ l2) m = maskSelect l1 m ++ maskSelect l2 (m / 2 ^ l1.length) := by
  induction l1 with
  | nil =>
    intro m
    simp [maskSelect]
  | cons v rest ih =>
    intro m
    show (if m % 2 = 1 then [v] else []) ++ maskSelect (rest ++ l2) (m / 2) = _
    rw [ih (m / 2), ← List.append_assoc]
    show _ = (if m % 2 = 1 then [v] else []) ++ maskSelect rest (m / 2) ++
      maskSelect l2 (m / 2 ^ (rest.length + 1))
    rw [Nat.div_div_eq_div_mul, ← pow_succ']

theorem maskSelect_mod (l : List α) : ∀ m : ℕ, maskSelect l (m % 2 ^ l.length) = maskSelect l m := by
  induction l with
  | nil => intro m; rfl
  | cons v rest ih =>
    intro m
    show (if (m % 2 ^ (rest.length + 1)) % 2 = 1 then [v] else []) ++
        maskSelect rest (m % 2 ^ (rest.length + 1) / 2) =
      (if m % 2 = 1 then [v] else []) ++ maskSelect rest (m / 2)
    have h1 : m % 2 ^ (rest.length + 1) % 2 = m % 2 :=
      Nat.mod_mod_of_dvd m ⟨2 ^ rest.length, by rw [pow_succ']⟩
    have h2 : m % 2 ^ (rest.length + 1) / 2 = m / 2 % 2 ^ rest.length := by
      rw [pow_succ']
      exact Nat.mod_mul_right_div_self m 2 (2 ^ rest.length)
    rw [h1, h2, ih (m / 2)]

theorem powerSet_getD (h : IsACZ adder zero) :
    ∀ (chunk : List α) (m : ℕ), m < 2 ^ chunk.length →
    (powerSet adder zero chunk).getD m zero = sumA adder zero (maskSelect chunk m) := by
  intro chunk
  induction chunk using List.reverseRecOn with
  | nil =>
    intro m hm
    have hm0 : m = 0 := by simpa using hm
    subst hm0
    rfl
  | append_singleton chunk v ih =>
    intro m hm
    rw [powerSet_append]
    rw [List.length_append, List.length_singleton] at hm
    have hpow : (2:ℕ) ^ (chunk.length + 1) = 2 ^ chunk.length + 2 ^ chunk.length := by
      rw [pow_succ]
      omega
    by_cases hlow : m < 2 ^ chunk.length
    · have hgd : (powerSet adder zero chunk ++
          (powerSet adder zero chunk).map fun n => adder n v).getD m zero =
          (powerSet adder zero chunk).getD m zero :=
        List.getD_append _ _ _ _ (by rw [powerSet_length]; exact hlow)
      rw [hgd, ih m hlow, maskSelect_append, Nat.div_eq_of_lt hlow]
      show _ = sumA adder zero (maskSelect chunk m ++ ((if (0:ℕ) % 2 = 1 then [v] else []) ++ []))
      norm_num
    · have hge : 2 ^ chunk.length ≤ m := by omega
      have hm2 : m - 2 ^ chunk.length < 2 ^ chunk.length := by omega
      have hgd : (powerSet adder zero chunk ++
          (powerSet adder zero chunk).map fun n => adder n v).getD m zero =
          ((powerSet adder zero chunk).map fun n => adder n v).getD
            (m - 2 ^ chunk.length) zero := by
        rw [List.getD_eq_getElem?_getD, List.getElem?_append,
          if_neg (by rw [powerSet_length]; omega), powerSet_length,
          ← List.getD_eq_getElem?_getD]
      have hmap : ((powerSet adder zero chunk).map fun n => adder n v).getD
          (m - 2 ^ chunk.length) zero =
          adder ((powerSet adder zero chunk).getD (m - 2 ^ chunk.length) zero) v := by
        rw [List.getD_eq_getElem?_getD, List.getElem?_map,
          List.getElem?_eq_getElem (by rw [powerSet_length]; exact hm2),
          List.getD_eq_getElem _ _ (by rw [powerSet_length]; exact hm2)]
        rfl
      have hdiv : m / 2 ^ chunk.length = 1 := by
        apply Nat.div_eq_of_lt_le
        · omega
        · omega
      have hms : maskSelect chunk m = maskSelect chunk (m - 2 ^ chunk.length) := by
        rw [← maskSelect_mod chunk m, ← maskSelect_mod chunk (m - 2 ^ chunk.length)]
        congr 1
        conv_lhs => rw [show m = (m - 2 ^ chunk.length) + 2 ^ chunk.length by omega]
        rw [Nat.add_mod_right]
      rw [hgd, hmap, ih _ hm2, maskSelect_append, hdiv]
      show adder (sumA adder zero (maskSelect chunk (m - 2 ^ chunk.length))) v =
        sumA adder zero (maskSelect chunk m ++ ((if (1:ℕ) % 2 = 1 then [v] else []) ++ []))
      rw [hms]
      norm_num
      rw [sumA_append h, sumA_singleton h]

theorem maskOf_succ (s : List ℕ) (base p : ℕ) :
    maskOf s base (p + 1) =
      if base + p ∈ s then maskOf s base p + 2 ^ p else maskOf s base p := by
  unfold maskOf
  rw [List.range_succ, List.foldl_append]
  rfl

theorem maskOf_eq_sum (s : List ℕ) (base : ℕ) :
    ∀ p, maskOf s base p = ∑ j ∈ Finset.range p, if base + j ∈ s then 2 ^ j else 0 := by
  intro p
  induction p with
  | zero => rfl
  | succ p ih =>
    rw [maskOf_succ, Finset.sum_range_succ, ih]
    by_cases hm : base + p ∈ s
    · rw [if_pos hm, if_pos hm]
    · rw [if_neg hm, if_neg hm, Nat.add_zero]

theorem maskOf_lt (s : List ℕ) (base : ℕ) : ∀ p, maskOf s base p < 2 ^ p := by
  intro p
  induction p with
  | zero => exact Nat.zero_lt_one
  | succ p ih =>
    rw [maskOf_succ]
    have hpow : (2:ℕ) ^ (p + 1) = 2 ^ p + 2 ^ p := by rw [pow_succ]; omega
    by_cases hm : base + p ∈ s
    · rw [if_pos hm]; omega
    · rw [if_neg hm]; omega

theorem maskOf_head (s : List ℕ) (base p : ℕ) :
    maskOf s base (p + 1) = (if base ∈ s then 1 else 0) + 2 * maskOf s (base + 1) p := by
  rw [maskOf_eq_sum, maskOf_eq_sum, Finset.sum_range_succ', Finset.mul_sum, Nat.add_comm]
  congr 1
  · apply Finset.sum_congr rfl
    intro j _
    rw [show base + (j + 1) = base + 1 + j by omega, pow_succ']
    by_cases hm : base + 1 + j ∈ s
    · rw [if_pos hm, if_pos hm]
    · rw [if_neg hm, if_neg hm, Nat.mul_zero]

theorem maskSelect_maskOf (s : List ℕ) :
    ∀ (chunk : List α) (base : ℕ),
    maskSelect chunk (maskOf s base chunk.length) = selectMem s chunk base := by
  intro chunk
  induction chunk with
  | nil => intro base; rfl
  | cons v rest ih =>
    intro base
    show (if maskOf s base (rest.length + 1) % 2 = 1 then [v] else []) ++
        maskSelect rest (maskOf s base (rest.length + 1) / 2) =
      (if base ∈ s then [v] else []) ++ selectMem s rest (base + 1)
    rw [maskOf_head]
    have hmod : ((if base ∈ s then 1 else 0) + 2 * maskOf s (base + 1) rest.length) % 2 =
        if base ∈ s then 1 else 0 := by
      by_cases hb : base ∈ s
      · rw [if_pos hb]; omega
      · rw [if_neg hb]; omega
    have hdiv : ((if base ∈ s then 1 else 0) + 2 * maskOf s (base + 1) rest.length) / 2 =
        maskOf s (base + 1) rest.length := by
      by_cases hb : base ∈ s
      · rw [if_pos hb]; omega
      · rw [if_neg hb]; omega
    rw [hmod, hdiv, ih]
    by_cases hb : base ∈ s
    · simp [hb]
    · simp [hb]

theorem selectMem_append (s : List ℕ) :
    ∀ (l1 l2 : List α) (base : ℕ),
    selectMem s (l1 ++ l2) base = selectMem s l1 base ++ selectMem s l2 (base + l1.length) := by
  intro l1
  induction l1 with
  | nil =>
    intro l2 base
    show selectMem s l2 base = [] ++ selectMem s l2 (base + 0)
    rw [Nat.add_zero, List.nil_append]
  | cons v rest ih =>
    intro l2 base
    show (if base ∈ s then [v] else []) ++ selectMem s (rest ++ l2) (base + 1) = _
    rw [ih, ← List.append_assoc]
    show _ = (if base ∈ s then [v] else []) ++ selectMem s rest (base + 1) ++
      selectMem s l2 (base + (rest.length + 1))
    rw [show base + (rest.length + 1) = base + 1 + rest.length by omega]

theorem chunksAux_flatten (p : ℕ) :
    ∀ (fuel : ℕ) (l : List α), l.length ≤ fuel → 0 < p → (chunksAux p fuel l).flatten = l := by
  intro fuel
  induction fuel with
  | zero =>
    intro l hl _
    have : l = [] := List.length_eq_zero.mp (by omega)
    subst this
    rfl
  | succ fuel ih =>
    intro l hl hp
    cases l with
    | nil => rfl
    | cons a l' =>
      show ((a :: l').take p :: chunksAux p fuel ((a :: l').drop p)).flatten = a :: l'
      rw [List.flatten_cons,
        ih _ (by rw [List.length_drop]; simp only [List.length_cons] at hl ⊢; omega) hp,
        List.take_append_drop]

theorem chunksAux_mem_length (p : ℕ) :
    ∀ (fuel : ℕ) (l : List α), l.length ≤ fuel → 0 < p → p ∣ l.length →
    ∀ c ∈ chunksAux p fuel l, c.length = p := by
  intro fuel
  induction fuel with
  | zero =>
    intro l hl _ _ c hc
    have : l = [] := List.length_eq_zero.mp (by omega)
    subst this
    cases hc
  | succ fuel ih =>
    intro l hl hp hdvd c hc
    cases l with
    | nil => cases hc
    | cons a l' =>
      have hplen : p ≤ (a :: l').length := by
        refine Nat.le_of_dvd ?_ hdvd
        simp
      rcases List.mem_cons.mp hc with rfl | hc'
      · rw [List.length_take]
        omega
      · refine ih _ ?_ hp ?_ c hc'
        · rw [List.length_drop]
          simp only [List.length_cons] at hl ⊢
          omega
        · rw [List.length_drop]
          exact Nat.dvd_sub' hdvd (dvd_refl p)

theorem msum_fold (h : IsACZ adder zero) (s : List ℕ) (p : ℕ) :
    ∀ (cl : List (List α)) (i0 : ℕ) (acc : α), (∀ c ∈ cl, c.length = p) →
    (List.enumFrom i0 (cl.map (powerSet adder zero))).foldl
      (fun o e => adder o (e.2.getD (maskOf s (e.1 * p) p) zero)) acc =
    List.foldl adder acc (selectMem s cl.flatten (i0 * p)) := by
  intro cl
  induction cl with
  | nil => intro i0 acc _; rfl
  | cons c cl' ih =>
    intro i0 acc hlen
    have hc : c.length = p := hlen c (List.mem_cons_self _ _)
    show List.foldl _
      (adder acc ((powerSet adder zero c).getD (maskOf s (i0 * p) p) zero))
      (List.enumFrom (i0 + 1) (cl'.map (powerSet adder zero))) = _
    rw [ih (i0 + 1) _ fun c' hc' => hlen c' (List.mem_cons_of_mem _ hc')]
    have hsel := maskSelect_maskOf s c (i0 * p)
    rw [hc] at hsel
    have hpc : (powerSet adder zero c).getD (maskOf s (i0 * p) p) zero =
        sumA adder zero (selectMem s c (i0 * p)) := by
      rw [powerSet_getD h c _ (by rw [hc]; exact maskOf_lt s _ p), hsel]
    rw [hpc]
    show _ = List.foldl adder acc (selectMem s (c ++ cl'.flatten) (i0 * p))
    rw [selectMem_append, List.foldl_append, foldl_adder h (selectMem s c (i0 * p)) acc,
      hc, show i0 * p + p = (i0 + 1) * p by ring]

theorem padToMultiple_dvd (zero : α) (numbers : List α) (p : ℕ) (hp : 0 < p) :
    p ∣ (padToMultiple zero numbers p).length := by
  rw [padToMultiple, List.length_append, List.length_replicate]
  rcases Nat.eq_zero_or_pos (numbers.length % p) with h0 | h0
  · rw [h0, Nat.sub_zero, Nat.mod_self, Nat.add_zero]
    exact Nat.dvd_of_mod_eq_zero h0
  · have hrp : numbers.length % p < p := Nat.mod_lt _ hp
    have h1 : (p - numbers.length % p) % p = p - numbers.length % p :=
      Nat.mod_eq_of_lt (by omega)
    have hdm := Nat.div_add_mod numbers.length p
    rw [h1]
    refine ⟨numbers.length / p + 1, ?_⟩
    rw [Nat.mul_add, Nat.mul_one]
    calc numbers.length + (p - numbers.length % p)
        = p * (numbers.length / p) + numbers.length % p + (p - numbers.length % p) := by
          rw [hdm]
      _ = p * (numbers.length / p) + (numbers.length % p + (p - numbers.length % p)) := by
          rw [Nat.add_assoc]
      _ = p * (numbers.length / p) + p := by
          rw [Nat.add_sub_cancel' (le_of_lt hrp)]

theorem selectMem_vals (s : List ℕ) :
    ∀ (l : List α) (base : ℕ),
    selectMem s l base =
      (((List.range l.length).filter fun j => decide (base + j ∈ s)).map
        fun j => l.getD j zero) := by
  intro l
  induction l with
  | nil => intro base; rfl
  | cons v rest ih =>
    intro base
    show (if base ∈ s then [v] else []) ++ selectMem s rest (base + 1) = _
    rw [show (v :: rest).length = rest.length + 1 from rfl, List.range_succ_eq_map,
      List.filter_cons, List.filter_map]
    have hfc : List.filter ((fun j => decide (base + j ∈ s)) ∘ Nat.succ)
        (List.range rest.length) =
        List.filter (fun j => decide (base + 1 + j ∈ s)) (List.range rest.length) := by
      apply List.filter_congr
      intro a _
      show decide (base + Nat.succ a ∈ s) = decide (base + 1 + a ∈ s)
      rw [show base + Nat.succ a = base + 1 + a from by omega]
    by_cases hb : base ∈ s
    · rw [if_pos hb, if_pos (by simp [hb]), List.map_cons, List.map_map, hfc, ih (base + 1)]
      rfl
    · rw [if_neg hb, if_neg (by simp [hb]), List.nil_append, List.map_map, hfc,
        ih (base + 1)]
      rfl

theorem sumA_zeros (h : IsACZ adder zero) :
    ∀ l : List α, (∀ a ∈ l, a = zero) → sumA adder zero l = zero := by
  intro l
  induction l with
  | nil => intro _; rfl
  | cons a rest ih =>
    intro hz
    rw [sumA_cons h, hz a (List.mem_cons_self _ _),
      ih fun b hb => hz b (List.mem_cons_of_mem _ hb), h.zero_add]

theorem selectMem_pad_sum (h : IsACZ adder zero) (numbers : List α) (padn : ℕ) (s : List ℕ) :
    sumA adder zero (selectMem s (numbers ++ List.replicate padn zero) 0) =
      subsetSumA adder zero numbers (mkSet (s.filter fun i => decide (i < numbers.length))) := by
  rw [selectMem_vals]
  have hz : (fun j => decide (0 + j ∈ s)) = fun j => decide (j ∈ s) := by
    funext j
    rw [Nat.zero_add]
  rw [hz, List.length_append, List.length_replicate, List.range_add, List.filter_append,
    List.map_append, sumA_append h]
  have hz2 : sumA adder zero
      ((((List.range padn).map fun x => numbers.length + x).filter fun j => decide (j ∈ s)).map
        fun j => (numbers ++ List.replicate padn zero).getD j zero) = zero := by
    apply sumA_zeros h
    intro a ha
    rcases List.mem_map.mp ha with ⟨j, hj, rfl⟩
    have hj2 : numbers.length ≤ j ∧ j < numbers.length + padn := by
      have hjm := (List.mem_filter.mp hj).1
      rcases List.mem_map.mp hjm with ⟨i, hi, rfl⟩
      have := List.mem_range.mp hi
      omega
    rw [List.getD_eq_getElem?_getD, List.getElem?_append, if_neg (by omega),
      List.getElem?_replicate, if_pos (by omega)]
    rfl
  rw [hz2, h.add_zero]
  have hmap : (((List.range numbers.length).filter fun j => decide (j ∈ s)).map
      fun j => (numbers ++ List.replicate padn zero).getD j zero) =
      (((List.range numbers.length).filter fun j => decide (j ∈ s)).map
        fun j => numbers.getD j zero) := by
    apply List.map_congr_left
    intro j hj
    have : j < numbers.length := List.mem_range.mp (List.mem_filter.mp hj).1
    exact List.getD_append _ _ _ _ this
  rw [hmap]
  have hLeq : ((List.range numbers.length).filter fun j => decide (j ∈ s)) =
      mkSet (s.filter fun i => decide (i < numbers.length)) := by
    refine @List.eq_of_perm_of_sorted ℕ (fun a b => a < b) inferInstance _ _ ?_ ?_ ?_
    · refine List.perm_of_nodup_nodup_toFinset_eq ?_ (mkSet_nodup _) ?_
      · exact (List.nodup_range _).filter _
      · ext j
        simp only [List.mem_toFinset, List.mem_filter, List.mem_range, mkSet_mem,
          decide_eq_true_eq]
        tauto
    · exact (List.pairwise_lt_range _).filter _
    · exact mkSet_sorted _
  rw [hLeq]
  rfl

/-- Evaluation of the partitioned power-set solver: it is total, and each
returned sum is the adder-fold of the elements at the subset's in-range
indices — out-of-range indices are silently ignored (they are only ever
membership-tested against positions of the padded collection). -/
theorem multisubset2_eval (h : IsACZ adder zero) (numbers : List α)
    (subsets : List (List ℕ)) :
    multisubset2 adder zero numbers subsets =
      subsets.map fun s =>
        subsetSumA adder zero numbers (mkSet (s.filter fun i => decide (i < numbers.length))) := by
  unfold multisubset2
  apply List.map_congr_left
  intro s _
  have hp : 0 < 1 + floorLn (subsets.length + 1) := by omega
  have hdvd := padToMultiple_dvd zero numbers _ hp
  have hchunk : ∀ c ∈ chunks (1 + floorLn (subsets.length + 1))
      (padToMultiple zero numbers (1 + floorLn (subsets.length + 1))), c.length =
      1 + floorLn (subsets.length + 1) :=
    chunksAux_mem_length _ _ _ (le_refl _) hp hdvd
  have hflat : (chunks (1 + floorLn (subsets.length + 1))
      (padToMultiple zero numbers (1 + floorLn (subsets.length + 1)))).flatten =
      padToMultiple zero numbers (1 + floorLn (subsets.length + 1)) :=
    chunksAux_flatten _ _ _ (le_refl _) hp
  have hfold := msum_fold h s (1 + floorLn (subsets.length + 1))
    (chunks (1 + floorLn (subsets.length + 1))
      (padToMultiple zero numbers (1 + floorLn (subsets.length + 1)))) 0 zero hchunk
  unfold List.enum
  rw [hfold, hflat]
  show sumA adder zero (selectMem s (padToMultiple zero numbers
    (1 + floorLn (subsets.length + 1))) (0 * (1 + floorLn (subsets.length + 1)))) = _
  rw [Nat.zero_mul, padToMultiple]
  exact selectMem_pad_sum h numbers _ s

end Ms2

section LincombBasics

variable {α : Type} {adder : α → α → α} {zero : α}

theorem bitLenAux_lt : ∀ (fuel n : ℕ), n ≤ fuel → n < 2 ^ bitLenAux fuel n := by
  intro fuel
  induction fuel with
  | zero =>
    intro n hn
    have h0 : n = 0 := by omega
    subst h0
    show 0 < 2 ^ 0
    norm_num
  | succ fuel ih =>
    intro n hn
    rw [bitLenAux]
    by_cases h0 : n = 0
    · rw [if_pos h0]
      subst h0
      norm_num
    · rw [if_neg h0]
      have h2 : n / 2 ≤ fuel := by omega
      have h3 := ih (n / 2) h2
      rw [pow_succ]
      omega

theorem natBitLen_lt (n : ℕ) : n < 2 ^ natBitLen n := bitLenAux_lt n n (le_refl n)

theorem repAdd_zero_elt (h : IsACZ adder zero) (n : ℕ) : repAdd adder zero n zero = zero :=
  sumA_zeros h _ fun _ ha => List.eq_of_mem_replicate ha

theorem repAdd_one (h : IsACZ adder zero) (x : α) : repAdd adder zero 1 x = x :=
  sumA_singleton h x

theorem repAdd_add (h : IsACZ adder zero) (m n : ℕ) (x : α) :
    repAdd adder zero (m + n) x = adder (repAdd adder zero m x) (repAdd adder zero n x) := by
  unfold repAdd
  rw [List.replicate_add, sumA_append h]

theorem repAdd_adder (h : IsACZ adder zero) (n : ℕ) (a b : α) :
    repAdd adder zero n (adder a b) = adder (repAdd adder zero n a) (repAdd adder zero n b) := by
  induction n with
  | zero => exact (h.zero_add zero).symm
  | succ n ih =>
    unfold repAdd at ih ⊢
    rw [List.replicate_succ, List.replicate_succ, List.replicate_succ,
      sumA_cons h, sumA_cons h, sumA_cons h, ih]
    exact h.ac4 _ _ _ _

theorem repAdd_sumA (h : IsACZ adder zero) (n : ℕ) :
    ∀ l : List α, repAdd adder zero n (sumA adder zero l) =
      sumA adder zero (l.map (repAdd adder zero n)) := by
  intro l
  induction l with
  | nil => exact repAdd_zero_elt h n
  | cons x rest ih =>
    rw [sumA_cons h, List.map_cons, sumA_cons h, repAdd_adder h, ih]

theorem loopDown_eq (h : IsACZ adder zero) (sums : List α) :
    ∀ (k : ℕ) (o : α),
    loopDown adder zero sums k o =
      adder (repAdd adder zero (2 ^ k) o) (hornerVal adder zero sums k) := by
  intro k
  induction k with
  | zero =>
    intro o
    show o = adder (repAdd adder zero 1 o) zero
    rw [repAdd_one h, h.add_zero]
  | succ k ih =>
    intro o
    rw [loopDown, ih, hornerVal, repAdd_adder h, repAdd_adder h]
    have h2 : repAdd adder zero (2 ^ (k + 1)) o =
        adder (repAdd adder zero (2 ^ k) o) (repAdd adder zero (2 ^ k) o) := by
      rw [show (2:ℕ) ^ (k + 1) = 2 ^ k + 2 ^ k by rw [pow_succ]; omega, repAdd_add h]
    rw [h2, h.assoc]
    congr 1
    exact h.comm _ _

theorem loopDown_hornerVal (h : IsACZ adder zero) (sums : List α) (k : ℕ) :
    loopDown adder zero sums k zero = hornerVal adder zero sums k := by
  rw [loopDown_eq h, repAdd_zero_elt h, h.zero_add]

theorem loopDownCount_spec (sums : List α) :
    ∀ (k : ℕ) (o : α) (c : ℕ),
    loopDownCount adder zero sums k o c = (loopDown adder zero sums k o, c + 2 * k) := by
  intro k
  induction k with
  | zero =>
    intro o c
    show (o, c) = (o, c + 0)
    rw [Nat.add_zero]
  | succ k ih =>
    intro o c
    rw [loopDownCount, ih, loopDown]
    congr 1
    omega

end LincombBasics

section LincombSubsetsLemmas

variable {α : Type} {adder : α → α → α} {zero : α}

theorem subsetForBit_ok (factors : List ℤ) (j : ℕ) :
    ∀ idxs : List ℕ, (∀ i ∈ idxs, i < factors.length) →
    subsetForBit factors j idxs =
      .ok (idxs.filter fun i => pyTestBit (factors.getD i 0) j) := by
  intro idxs
  induction idxs with
  | nil => intro _; rfl
  | cons i is ih =>
    intro hval
    have hi : i < factors.length := hval i (List.mem_cons_self _ _)
    rw [subsetForBit, List.getElem?_eq_getElem hi]
    dsimp only
    rw [ih fun b hb => hval b (List.mem_cons_of_mem _ hb)]
    dsimp only
    rw [List.filter_cons]
    have hd : factors.getD i 0 = factors[i] := List.getD_eq_getElem _ _ hi
    cases hb : pyTestBit factors[i] j
    · rw [if_neg Bool.false_ne_true, if_neg (by
        show ¬(pyTestBit (factors.getD i 0) j = true)
        rw [hd, hb]
        exact Bool.false_ne_true)]
    · rw [if_pos rfl, if_pos (by
        show pyTestBit (factors.getD i 0) j = true
        rw [hd]
        exact hb)]

theorem subsetForBit_err (factors : List ℤ) (j : ℕ) :
    ∀ idxs : List ℕ, (∃ i ∈ idxs, factors.length ≤ i) →
    subsetForBit factors j idxs = .error .indexError := by
  intro idxs
  induction idxs with
  | nil =>
    rintro ⟨i, hi, -⟩
    cases hi
  | cons i is ih =>
    rintro ⟨i0, hi0, hlen⟩
    rw [subsetForBit]
    by_cases hi : i < factors.length
    · rw [List.getElem?_eq_getElem hi]
      dsimp only
      have hw : ∃ b ∈ is, factors.length ≤ b := by
        rcases List.mem_cons.mp hi0 with rfl | hmem
        · exact absurd hi (by omega)
        · exact ⟨i0, hmem, hlen⟩
      rw [ih hw]
    · rw [List.getElem?_eq_none (by omega)]

theorem mapM_ok {γ : Type} (f : ℕ → Except MErr γ) (g : ℕ → γ) :
    ∀ l : List ℕ, (∀ b ∈ l, f b = .ok (g b)) → l.mapM f = .ok (l.map g) := by
  intro l
  induction l with
  | nil => intro _; rfl
  | cons b bs ih =>
    intro hok
    rw [List.mapM_cons, hok b (List.mem_cons_self _ _),
      ih fun c hc => hok c (List.mem_cons_of_mem _ hc)]
    rfl

theorem mapM_err_head {γ : Type} (f : ℕ → Except MErr γ) (e : MErr) (b : ℕ) (bs : List ℕ)
    (hb : f b = .error e) : (b :: bs).mapM f = .error e := by
  rw [List.mapM_cons, hb]
  rfl

theorem lincombSubsets_ok (factors : List ℤ) (n maxb : ℕ) (hlen : n ≤ factors.length) :
    lincombSubsets factors n maxb =
      .ok ((List.range (maxb + 1)).map fun j =>
        (List.range n).filter fun i => pyTestBit (factors.getD i 0) j) := by
  unfold lincombSubsets
  apply mapM_ok
  intro j _
  apply subsetForBit_ok
  intro i hi
  have := List.mem_range.mp hi
  omega

theorem lincombSubsets_err (factors : List ℤ) (n maxb : ℕ) (hlen : factors.length < n) :
    lincombSubsets factors n maxb = .error .indexError := by
  unfold lincombSubsets
  rw [List.range_succ_eq_map]
  exact mapM_err_head _ _ _ _
    (subsetForBit_err factors 0 _ ⟨factors.length, List.mem_range.mpr hlen, le_refl _⟩)

theorem zip_ite_sum (h : IsACZ adder zero) (p : ℤ → Bool) :
    ∀ (xs : List α) (fs : List ℤ), xs.length ≤ fs.length →
    sumA adder zero (List.zipWith (fun x f => if p f then x else zero) xs fs) =
      sumA adder zero (((List.range xs.length).filter fun i => p (fs.getD i 0)).map
        fun i => xs.getD i zero) := by
  intro xs
  induction xs with
  | nil => intro fs _; rfl
  | cons x xs' ih =>
    intro fs hlen
    cases fs with
    | nil => simp at hlen
    | cons f fs' =>
      rw [List.zipWith_cons_cons, sumA_cons h]
      have hfc : List.filter ((fun i => p ((f :: fs').getD i 0)) ∘ Nat.succ)
          (List.range xs'.length) =
          List.filter (fun i => p (fs'.getD i 0)) (List.range xs'.length) := by
        apply List.filter_congr
        intro a _
        rfl
      rw [show (x :: xs').length = xs'.length + 1 from rfl, List.range_succ_eq_map,
        List.filter_cons, List.filter_map, hfc]
      have hlen' : xs'.length ≤ fs'.length := by
        simp only [List.length_cons] at hlen
        omega
      cases hp : p f
      · rw [if_neg Bool.false_ne_true, if_neg (by
          show ¬(p ((f :: fs').getD 0 0) = true)
          show ¬(p f = true)
          rw [hp]
          exact Bool.false_ne_true), h.zero_add, ih fs' hlen', List.map_map]
        rfl
      · rw [if_pos rfl, if_pos (by
          show p ((f :: fs').getD 0 0) = true
          show p f = true
          rw [hp]), List.map_cons, sumA_cons h]
        congr 1
        rw [ih fs' hlen', List.map_map]
        rfl

theorem emod_pow_succ (f : ℤ) (k : ℕ) :
    f % (2 ^ (k + 1)) = f % (2 ^ k) + if pyTestBit f k then 2 ^ k else 0 := by
  have hpk : (0:ℤ) < 2 ^ k := by positivity
  have hps : (2:ℤ) ^ (k + 1) = 2 ^ k + 2 ^ k := by rw [pow_succ]; ring
  have hfd : f.fdiv (2 ^ k) = f / 2 ^ k := Int.fdiv_eq_ediv f (le_of_lt hpk)
  have hq2 : f / 2 ^ k = 2 * ((f / 2 ^ k) / 2) + (f / 2 ^ k) % 2 := by omega
  have hr1 : 0 ≤ f % 2 ^ k := Int.emod_nonneg f (by positivity)
  have hr2 : f % 2 ^ k < 2 ^ k := Int.emod_lt_of_pos f hpk
  have hb : (f / 2 ^ k) % 2 = 0 ∨ (f / 2 ^ k) % 2 = 1 := Int.emod_two_eq _
  have hf : f = (2 ^ k * ((f / 2 ^ k) % 2) + f % 2 ^ k) + 2 ^ (k + 1) * ((f / 2 ^ k) / 2) := by
    calc f = 2 ^ k * (f / 2 ^ k) + f % 2 ^ k := (Int.ediv_add_emod f (2 ^ k)).symm
      _ = 2 ^ k * (2 * ((f / 2 ^ k) / 2) + (f / 2 ^ k) % 2) + f % 2 ^ k := by rw [← hq2]
      _ = (2 ^ k * ((f / 2 ^ k) % 2) + f % 2 ^ k) + 2 ^ (k + 1) * ((f / 2 ^ k) / 2) := by
          rw [pow_succ]; ring
  have hXnn : 0 ≤ 2 ^ k * ((f / 2 ^ k) % 2) + f % 2 ^ k := by
    rcases hb with hb | hb <;> rw [hb] <;> omega
  have hXlt : 2 ^ k * ((f / 2 ^ k) % 2) + f % 2 ^ k < 2 ^ (k + 1) := by
    rcases hb with hb | hb <;> rw [hb] <;> omega
  have hmain : f % (2 ^ (k + 1)) = 2 ^ k * ((f / 2 ^ k) % 2) + f % 2 ^ k := by
    conv_lhs => rw [hf]
    rw [Int.add_mul_emod_self_left, Int.emod_eq_of_lt hXnn hXlt]
  rw [hmain]
  unfold pyTestBit
  rw [hfd]
  rcases hb with hb | hb
  · rw [hb]
    norm_num
  · rw [hb]
    norm_num
    ring

end LincombSubsetsLemmas

section LincombMaster

variable {α : Type} {adder : α → α → α} {zero : α}

theorem sumA_zipWith_zero (h : IsACZ adder zero) (g : α → ℤ → α)
    (hg : ∀ x f, g x f = zero) :
    ∀ (xs : List α) (fs : List ℤ), sumA adder zero (List.zipWith g xs fs) = zero := by
  intro xs
  induction xs with
  | nil => intro fs; rfl
  | cons x xs' ih =>
    intro fs
    cases fs with
    | nil => rfl
    | cons f fs' =>
      rw [List.zipWith_cons_cons, sumA_cons h, hg, ih, h.zero_add]

theorem sumA_zipWith_adder (h : IsACZ adder zero) (g1 g2 : α → ℤ → α) :
    ∀ (xs : List α) (fs : List ℤ),
    adder (sumA adder zero (List.zipWith g1 xs fs)) (sumA adder zero (List.zipWith g2 xs fs)) =
      sumA adder zero (List.zipWith (fun x f => adder (g1 x f) (g2 x f)) xs fs) := by
  intro xs
  induction xs with
  | nil => intro fs; exact h.add_zero zero
  | cons x xs' ih =>
    intro fs
    cases fs with
    | nil => exact h.add_zero zero
    | cons f fs' =>
      rw [List.zipWith_cons_cons, List.zipWith_cons_cons, List.zipWith_cons_cons,
        sumA_cons h, sumA_cons h, sumA_cons h, h.ac4, ih]

theorem two_pow_toNat (k : ℕ) : ((2:ℤ) ^ k).toNat = 2 ^ k := by
  rw [show ((2:ℤ) ^ k) = ((2 ^ k : ℕ) : ℤ) by push_cast; ring, Int.toNat_natCast]

theorem hornerVal_masked (h : IsACZ adder zero) (numbers : List α) (factors : List ℤ)
    (sums : List α) :
    ∀ k : ℕ,
    (∀ j, j < k → sums.getD j zero =
      sumA adder zero (List.zipWith (fun x f => if pyTestBit f j then x else zero)
        numbers factors)) →
    hornerVal adder zero sums k = maskedLinSum adder zero numbers factors k := by
  intro k
  induction k with
  | zero =>
    intro _
    show zero = maskedLinSum adder zero numbers factors 0
    unfold maskedLinSum
    rw [sumA_zipWith_zero h]
    intro x f
    rw [pow_zero, Int.emod_one]
    rfl
  | succ k ih =>
    intro hS
    rw [hornerVal, ih fun j hj => hS j (by omega), hS k (by omega), repAdd_sumA h,
      List.map_zipWith]
    unfold maskedLinSum
    rw [sumA_zipWith_adder h]
    have hfun : (fun (x : α) (f : ℤ) =>
        adder (repAdd adder zero ((f % 2 ^ k).toNat) x)
          (repAdd adder zero (2 ^ k) (if pyTestBit f k then x else zero))) =
        fun (x : α) (f : ℤ) => repAdd adder zero ((f % 2 ^ (k + 1)).toNat) x := by
      funext x f
      have hemod := emod_pow_succ f k
      have hnn : 0 ≤ f % 2 ^ k := Int.emod_nonneg f (by positivity)
      cases hb : pyTestBit f k
      · rw [if_neg Bool.false_ne_true, repAdd_zero_elt h, h.add_zero]
        rw [hb] at hemod
        rw [if_neg Bool.false_ne_true] at hemod
        rw [hemod, Int.add_zero]
      · rw [if_pos rfl]
        rw [hb] at hemod
        rw [if_pos rfl] at hemod
        rw [hemod, Int.toNat_add hnn (by positivity), two_pow_toNat, repAdd_add h]
    rw [hfun]

theorem foldl_max_init_le : ∀ (l : List ℕ) (a : ℕ), a ≤ l.foldl max a := by
  intro l
  induction l with
  | nil => intro a; exact le_refl a
  | cons c cs ih =>
    intro a
    exact le_trans (le_max_left a c) (ih (max a c))

theorem foldl_max_le_mem : ∀ (l : List ℕ) (a b : ℕ), b ∈ l → b ≤ l.foldl max a := by
  intro l
  induction l with
  | nil => intro a b hb; cases hb
  | cons c cs ih =>
    intro a b hb
    rcases List.mem_cons.mp hb with rfl | hb'
    · exact le_trans (le_max_right a b) (foldl_max_init_le cs (max a b))
    · exact ih (max a c) b hb'

theorem pyBinLen_le_pyMaxbitlen {factors : List ℤ} {f : ℤ} (hf : f ∈ factors) :
    pyBinLen f ≤ pyMaxbitlen factors := by
  unfold pyMaxbitlen
  exact foldl_max_le_mem _ 0 _ (List.mem_map_of_mem pyBinLen hf)

theorem lt_two_pow_pyBinLen {f : ℤ} (hf : 0 ≤ f) : f < 2 ^ pyBinLen f := by
  unfold pyBinLen
  by_cases h0 : f = 0
  · rw [if_pos h0, h0]
    norm_num
  · rw [if_neg h0, if_pos (by omega)]
    have hn := natBitLen_lt f.toNat
    have hc : ((f.toNat : ℤ)) < ((2 ^ natBitLen f.toNat : ℕ) : ℤ) := by exact_mod_cast hn
    rw [Int.toNat_of_nonneg hf] at hc
    calc f < ((2 ^ natBitLen f.toNat : ℕ) : ℤ) := hc
      _ = 2 ^ natBitLen f.toNat := by push_cast; ring

/-- Evaluation of the linear-combination reducer: with compatible lengths,
non-empty inputs and the round cap respected, `lincomb` returns the weighted
sum in which each factor contributes its non-negative residue modulo
`2 ^ (maxbitlen + 1)` — the low bits the bit-decomposition actually reads. -/
theorem lincomb_masked (h : IsACZ adder zero) {numbers : List α} {factors : List ℤ}
    (hne : numbers ≠ []) (hfne : factors ≠ [])
    (hlen : numbers.length ≤ factors.length)
    (hsz : (pyMaxbitlen factors + 1) * numbers.length < 9999999) :
    lincomb adder zero numbers factors =
      .ok (maskedLinSum adder zero numbers factors (pyMaxbitlen factors + 1)) := by
  rw [lincomb, if_neg (by rw [List.isEmpty_iff]; exact hfne),
    lincombSubsets_ok factors numbers.length _ hlen]
  dsimp only
  have hvalid : ValidSubsets ((List.range (pyMaxbitlen factors + 1)).map fun j =>
      (List.range numbers.length).filter fun i => pyTestBit (factors.getD i 0) j)
      numbers.length := by
    intro s hs i hi
    rcases List.mem_map.mp hs with ⟨j, -, rfl⟩
    exact List.mem_range.mp (List.mem_filter.mp hi).1
  have htl : totalLen ((List.range (pyMaxbitlen factors + 1)).map fun j =>
      (List.range numbers.length).filter fun i => pyTestBit (factors.getD i 0) j) <
      9999999 := by
    unfold totalLen
    rw [List.map_map]
    refine lt_of_le_of_lt ?_ hsz
    have hb := List.sum_le_card_nsmul
      ((List.range (pyMaxbitlen factors + 1)).map
        (List.length ∘ fun j =>
          (List.range numbers.length).filter fun i => pyTestBit (factors.getD i 0) j))
      numbers.length ?_
    · rw [List.length_map, List.length_range, smul_eq_mul] at hb
      exact hb
    · intro x hx
      rcases List.mem_map.mp hx with ⟨j, -, rfl⟩
      exact le_trans (List.length_filter_le _ _) (by rw [List.length_range])
  rw [multisubset_ok h hne hvalid htl]
  dsimp only
  congr 1
  rw [List.length_map, List.length_range, loopDown_hornerVal h]
  apply hornerVal_masked h numbers factors
  intro j hj
  have hj2 : j < (naiveSums adder zero numbers
      ((List.range (pyMaxbitlen factors + 1)).map fun j =>
        (List.range numbers.length).filter fun i => pyTestBit (factors.getD i 0) j)).length := by
    unfold naiveSums
    rw [List.length_map, List.length_map, List.length_range]
    exact hj
  rw [List.getD_eq_getElem _ _ hj2]
  unfold naiveSums
  rw [List.getElem_map, List.getElem_map, List.getElem_range,
    mkSet_of_sorted ((List.pairwise_lt_range _).filter _)]
  exact (zip_ite_sum h (fun f => pyTestBit f j) numbers factors hlen).symm

end LincombMaster

section ClaimHelpers

/-- Integer addition with `0` is an associative commutative adder with
identity — the concrete instance every witness below runs. -/
theorem intAddACZ : IsACZ (fun x y : ℤ => x + y) 0 :=
  ⟨fun a b c => add_assoc a b c, fun a b => add_comm a b, fun a => zero_add a⟩

/-- `zipWith` congruence with the pointwise equation available only for
members of the second list. -/
theorem zipWith_mem_congr {β γ δ : Type} (g1 g2 : β → γ → δ) :
    ∀ (xs : List β) (fs : List γ), (∀ f ∈ fs, ∀ x, g1 x f = g2 x f) →
    List.zipWith g1 xs fs = List.zipWith g2 xs fs := by
  intro xs
  induction xs with
  | nil => intro fs _; rfl
  | cons x xs ih =>
    intro fs hf
    cases fs with
    | nil => rfl
    | cons f fs =>
      rw [List.zipWith_cons_cons, hf f (List.mem_cons_self f fs),
        ih fs fun g hg y => hf g (List.mem_cons_of_mem _ hg) y]
      rfl

end ClaimHelpers

section Claims

/-- Claim C1 (amended): the claim promises the naive per-subset adder-folds
for every elements list, but `multisubset` raises a math-domain error when
`elements` is empty (see the counterexample); on a non-empty elements list
with valid indices (and total subset size under the source's 9999999-round
cap, which the source silently assumes), `multisubset` does return exactly
the adder-fold of the elements at each subset's indices. -/
theorem C1_greedy_solver_correct {α : Type} (adder : α → α → α) (zero : α)
    (h : IsACZ adder zero) (numbers : List α) (subsets : List (List ℕ))
    (hne : numbers ≠ []) (hvalid : ValidSubsets subsets numbers.length)
    (hsz : totalLen subsets < 9999999) :
    multisubset adder zero numbers subsets = .ok (naiveSums adder zero numbers subsets) :=
  multisubset_ok h hne hvalid hsz

/-- Claim C1, counterexample: on the empty elements list with one (vacuously
valid) empty subset, `multisubset` does not return the fold list `[zero]`:
`math.log(0)` raises a math domain error. -/
theorem C1_counterexample :
    multisubset (fun x y : ℤ => x + y) 0 [] [[]] = .error .mathDomain := rfl

/-- Claim C1, witness: the amended theorem at `numbers = [2, 3, 5]` and
subsets `[{0, 1}, {1, 2}, {0, 1, 2}]`, whose naive folds are `[5, 8, 10]`. -/
theorem C1_greedy_solver_correct_witness :
    multisubset (fun x y : ℤ => x + y) 0 [2, 3, 5] [[0, 1], [1, 2], [0, 1, 2]] =
      .ok [5, 8, 10] := by
  rw [C1_greedy_solver_correct (fun x y : ℤ => x + y) 0 intAddACZ [2, 3, 5]
    [[0, 1], [1, 2], [0, 1, 2]] (by decide) (by unfold ValidSubsets; decide) (by decide)]
  rfl

/-- Claim C2 (confirmed): with `factors` and `elements` of equal length,
at least one factor, all factors non-negative (and the bit-count/round-cap
bound the source silently assumes), `lincomb` returns exactly
`Σ elements[i] * factors[i]` under repeated adder application. -/
theorem C2_lincomb_weighted_sum {α : Type} (adder : α → α → α) (zero : α)
    (h : IsACZ adder zero) (numbers : List α) (factors : List ℤ)
    (hfne : factors ≠ []) (hlen : factors.length = numbers.length)
    (hpos : ∀ f ∈ factors, 0 ≤ f)
    (hsz : (pyMaxbitlen factors + 1) * numbers.length < 9999999) :
    lincomb adder zero numbers factors =
      .ok (sumA adder zero
        (List.zipWith (fun x f => repAdd adder zero f.toNat x) numbers factors)) := by
  have hne : numbers ≠ [] := by
    intro hc
    apply hfne
    apply List.length_eq_zero.mp
    rw [hlen, hc]
    rfl
  rw [lincomb_masked h hne hfne (le_of_eq hlen.symm) hsz]
  congr 1
  unfold maskedLinSum
  congr 1
  apply zipWith_mem_congr
  intro f hf x
  have hmod : f % (2 ^ (pyMaxbitlen factors + 1)) = f := by
    apply Int.emod_eq_of_lt (hpos f hf)
    calc f < 2 ^ pyBinLen f := lt_two_pow_pyBinLen (hpos f hf)
      _ ≤ 2 ^ (pyMaxbitlen factors + 1) := by
        apply pow_le_pow_right₀
        · norm_num
        · exact le_trans (pyBinLen_le_pyMaxbitlen hf) (Nat.le_succ _)
  rw [hmod]

/-- Claim C2, witness: `lincomb` over ℤ at `elements = [2, 3, 5]`,
`factors = [6, 1, 2]` returns `2*6 + 3*1 + 5*2 = 25`. -/
theorem C2_lincomb_weighted_sum_witness :
    lincomb (fun x y : ℤ => x + y) 0 [2, 3, 5] [6, 1, 2] = .ok 25 := by
  rw [C2_lincomb_weighted_sum (fun x y : ℤ => x + y) 0 intAddACZ [2, 3, 5] [6, 1, 2]
    (by decide) (by decide) (by decide) (by decide)]
  rfl

/-- Claim C3 (amended): on a non-empty elements list with valid indices (and
the cap the source assumes), `multisubset2` satisfies the naive-fold
postcondition and agrees with `multisubset` (which wraps the same list in its
ok/return value); the unqualified "on identical inputs" of the claim fails on
the empty elements list, where the two solvers diverge (counterexample). -/
theorem C3_partitioned_matches_greedy {α : Type} (adder : α → α → α) (zero : α)
    (h : IsACZ adder zero) (numbers : List α) (subsets : List (List ℕ))
    (hne : numbers ≠ []) (hvalid : ValidSubsets subsets numbers.length)
    (hsz : totalLen subsets < 9999999) :
    multisubset2 adder zero numbers subsets = naiveSums adder zero numbers subsets ∧
    multisubset adder zero numbers subsets =
      .ok (multisubset2 adder zero numbers subsets) := by
  have h2 : multisubset2 adder zero numbers subsets =
      naiveSums adder zero numbers subsets := by
    rw [multisubset2_eval h numbers subsets]
    unfold naiveSums
    apply List.map_congr_left
    intro s hs
    rw [List.filter_eq_self.mpr fun i hi => decide_eq_true (hvalid s hs i hi)]
  exact ⟨h2, by rw [h2]; exact multisubset_ok h hne hvalid hsz⟩

/-- Claim C3, counterexample: on the empty elements list with two (vacuously
valid) empty subsets, `multisubset2` returns `[0, 0]` while `multisubset`
raises a math domain error — the two solvers do not return equal outputs on
identical inputs. -/
theorem C3_counterexample :
    multisubset2 (fun x y : ℤ => x + y) 0 [] [[], []] = [0, 0] ∧
    multisubset (fun x y : ℤ => x + y) 0 [] [[], []] = .error .mathDomain :=
  ⟨rfl, rfl⟩

/-- Claim C3, witness: both solvers at `elements = [4, 7, 9]`, subsets
`[{2}, {0, 2}]`, agreeing on `[9, 13]`. -/
theorem C3_partitioned_matches_greedy_witness :
    multisubset2 (fun x y : ℤ => x + y) 0 [4, 7, 9] [[2], [0, 2]] = [9, 13] ∧
    multisubset (fun x y : ℤ => x + y) 0 [4, 7, 9] [[2], [0, 2]] = .ok [9, 13] := by
  obtain ⟨h1, h2⟩ := C3_partitioned_matches_greedy (fun x y : ℤ => x + y) 0 intAddACZ
    [4, 7, 9] [[2], [0, 2]] (by decide) (by unfold ValidSubsets; decide) (by decide)
  constructor
  · rw [h1]; rfl
  · rw [h2, h1]; rfl

/-- Claim C4 (amended): the recombination loop iterates once per constructed
subset — bit positions `0 .. maxbitlen` inclusive, i.e. `maxbitlen + 1`
iterations of two adder calls each — so it makes exactly
`2 * (maxbitlen + 1)` adder calls, not the claimed `2 * B = 2 * maxbitlen`
(counterexample: one factor `1`, where the loop makes 4 calls, not 2). -/
theorem C4_recombination_call_count {α : Type} (adder : α → α → α) (zero : α)
    (sums : List α) (numbers : List α) (factors : List ℤ) (subsets : List (List ℕ))
    (hlen : numbers.length ≤ factors.length)
    (hs : lincombSubsets factors numbers.length (pyMaxbitlen factors) = .ok subsets) :
    (loopDownCount adder zero sums subsets.length zero 0).2 =
      2 * (pyMaxbitlen factors + 1) := by
  rw [lincombSubsets_ok factors numbers.length _ hlen] at hs
  injection hs with hs
  rw [← hs, List.length_map, List.length_range, loopDownCount_spec]
  show 0 + 2 * (pyMaxbitlen factors + 1) = 2 * (pyMaxbitlen factors + 1)
  omega

/-- Claim C4, counterexample: for the single factor `1` the maximum
bit-length `B` is `1` and `lincomb` builds two bit subsets, so the
instrumented recombination loop makes `4` adder calls — not `2 * B = 2`. -/
theorem C4_counterexample :
    pyMaxbitlen [(1 : ℤ)] = 1 ∧
    lincombSubsets [(1 : ℤ)] 1 (pyMaxbitlen [(1 : ℤ)]) = .ok [[0], []] ∧
    (loopDownCount (fun x y : ℤ => x + y) 0 [3, 0] 2 0 0).2 = 4 ∧
    (4 : ℕ) ≠ 2 * 1 :=
  ⟨rfl, rfl, rfl, by decide⟩

/-- Claim C4, witness: the amended count at the single factor `1` (two bit
subsets, 4 adder calls = `2 * (maxbitlen + 1)`). -/
theorem C4_recombination_call_count_witness :
    (loopDownCount (fun x y : ℤ => x + y) 0 [3, 0]
      (([[0], []] : List (List ℕ)).length) 0 0).2 = 2 * (pyMaxbitlen [(1 : ℤ)] + 1) :=
  C4_recombination_call_count (fun x y : ℤ => x + y) 0 [3, 0] [3] [1] [[0], []]
    (by decide) rfl

/-- Claim C5 (amended): neither solver validates indices up front.
`multisubset2` never raises: it only membership-tests indices against
positions of the padded collection, silently ignoring out-of-range ones
(first conjunct, the general evaluation). `multisubset` raises an IndexError
only when it actually subscripts an out-of-range index — the concrete second
conjunct — but the counterexample shows inputs with out-of-range indices on
which it instead silently returns sums. -/
theorem C5_invalid_index_behavior :
    (∀ (α : Type) (adder : α → α → α) (zero : α), IsACZ adder zero →
      ∀ (numbers : List α) (subsets : List (List ℕ)),
        multisubset2 adder zero numbers subsets =
          subsets.map fun s => subsetSumA adder zero numbers
            (mkSet (s.filter fun i => decide (i < numbers.length)))) ∧
    multisubset (fun x y : ℤ => x + y) 0 [3] [[5]] = .error .indexError :=
  ⟨fun _ _ _ h numbers subsets => multisubset2_eval h numbers subsets, rfl⟩

/-- Claim C5, counterexample: index `3` is out of range for the 3-element
list, yet `multisubset` returns sums (pair merging appends elements, so the
index becomes valid later — a silently wrong result, not a failure); and
`multisubset2` silently returns `[0]` for index `5` against one element. -/
theorem C5_counterexample :
    multisubset (fun x y : ℤ => x + y) 0 [2, 3, 5] [[0, 1], [0, 1], [0, 1], [3]] =
      .ok [5, 5, 5, 5] ∧
    multisubset2 (fun x y : ℤ => x + y) 0 [2] [[5]] = [0] :=
  ⟨rfl, rfl⟩

/-- Claim C5, witness: the general conjunct at one element and subsets
`[{5}, {0}]` — the out-of-range `5` is dropped, the valid `0` kept. -/
theorem C5_invalid_index_behavior_witness :
    multisubset2 (fun x y : ℤ => x + y) 0 [2] [[5], [0]] = [0, 2] := by
  rw [C5_invalid_index_behavior.1 ℤ (fun x y => x + y) 0 intAddACZ [2] [[5], [0]]]
  rfl

/-- Claim C6 (amended): `lincomb` performs no sign check and never raises a
negative-factor error; a negative factor's two's-complement low bits are
read, so every factor contributes its non-negative residue modulo
`2 ^ (maxbitlen + 1)` — for a negative factor a silently wrong value, not a
failure (counterexample: `lincomb [1] [-1] = 7`). -/
theorem C6_negative_factor_masked {α : Type} (adder : α → α → α) (zero : α)
    (h : IsACZ adder zero) (numbers : List α) (factors : List ℤ)
    (hne : numbers ≠ []) (hfne : factors ≠ [])
    (hlen : numbers.length ≤ factors.length)
    (hsz : (pyMaxbitlen factors + 1) * numbers.length < 9999999) :
    lincomb adder zero numbers factors =
      .ok (maskedLinSum adder zero numbers factors (pyMaxbitlen factors + 1)) :=
  lincomb_masked h hne hfne hlen hsz

/-- Claim C6, counterexample: with the negative factor `-1`, `lincomb` does
not fail — it returns `7` (= `-1 mod 2^3`, the masked low bits) for the
single element `1`. -/
theorem C6_counterexample :
    lincomb (fun x y : ℤ => x + y) 0 [1] [-1] = .ok 7 := rfl

/-- Claim C6, witness: the masked evaluation at element `[2]`, factor `[-3]`:
`-3 mod 2^4 = 13`, so the result is `26`. -/
theorem C6_negative_factor_masked_witness :
    lincomb (fun x y : ℤ => x + y) 0 [2] [-3] = .ok 26 := by
  rw [C6_negative_factor_masked (fun x y : ℤ => x + y) 0 intAddACZ [2] [-3]
    (by decide) (by decide) (by decide) (by decide)]
  rfl

/-- Claim C7 (amended): `lincomb` has no length check. When `factors` is
shorter than `elements` (and non-empty) the bit-subset construction
subscripts `factors` out of range and the call fails with an IndexError —
not a dedicated length-mismatch error. When `factors` is longer, the call
silently succeeds, ignoring the extra factors (second conjunct, and the
counterexample). -/
theorem C7_length_mismatch_behavior :
    (∀ (α : Type) (adder : α → α → α) (zero : α) (numbers : List α) (factors : List ℤ),
      factors ≠ [] → factors.length < numbers.length →
      lincomb adder zero numbers factors = .error .indexError) ∧
    lincomb (fun x y : ℤ => x + y) 0 [2] [1, 1] = .ok 2 := by
  constructor
  · intro α adder zero numbers factors hfne hlt
    rw [lincomb, if_neg (by rw [List.isEmpty_iff]; exact hfne),
      lincombSubsets_err factors numbers.length (pyMaxbitlen factors) hlt]
  · rfl

/-- Claim C7, counterexample: `elements = [3]` and `factors = [1, 5]` have
different lengths, yet the call does not fail — it returns `3`, silently
ignoring the extra factor. -/
theorem C7_counterexample :
    lincomb (fun x y : ℤ => x + y) 0 [3] [1, 5] = .ok 3 := rfl

/-- Claim C7, witness: the error conjunct at two elements and one factor —
the missing factor is subscripted and the call fails with an IndexError. -/
theorem C7_length_mismatch_behavior_witness :
    lincomb (fun x y : ℤ => x + y) 0 [5, 7] [1] = .error .indexError :=
  C7_length_mismatch_behavior.1 ℤ (fun x y => x + y) 0 [5, 7] [1] (by decide) (by decide)

/-- Claim C8 (confirmed): on a non-empty elements list with valid indices
(and the source's round cap), every empty subset yields the sum `zero`, in
both `multisubset` (position `k` of its returned list) and `multisubset2`. -/
theorem C8_empty_subset_zero {α : Type} (adder : α → α → α) (zero : α)
    (h : IsACZ adder zero) (numbers : List α) (subsets : List (List ℕ))
    (hne : numbers ≠ []) (hvalid : ValidSubsets subsets numbers.length)
    (hsz : totalLen subsets < 9999999) (k : ℕ) (hk : k < subsets.length)
    (hemp : subsets.getD k [] = []) :
    ∃ sums, multisubset adder zero numbers subsets = .ok sums ∧
      sums.getD k zero = zero ∧
      (multisubset2 adder zero numbers subsets).getD k zero = zero := by
  refine ⟨naiveSums adder zero numbers subsets, multisubset_ok h hne hvalid hsz, ?_, ?_⟩
  · unfold naiveSums
    rw [List.getD_eq_getElem _ _ (by simpa using hk), List.getElem_map]
    rw [List.getD_eq_getElem _ _ hk] at hemp
    rw [hemp]
    rfl
  · rw [multisubset2_eval h numbers subsets,
      List.getD_eq_getElem _ _ (by simpa using hk), List.getElem_map]
    rw [List.getD_eq_getElem _ _ hk] at hemp
    rw [hemp]
    rfl

/-- Claim C8, witness: at `elements = [2, 3, 5]` with subsets
`[{0, 1}, {}, {2}]`, the middle (empty) subset's sum is `0` in both
solvers. -/
theorem C8_empty_subset_zero_witness :
    ∃ sums, multisubset (fun x y : ℤ => x + y) 0 [2, 3, 5] [[0, 1], [], [2]] =
        .ok sums ∧
      sums.getD 1 0 = 0 ∧
      (multisubset2 (fun x y : ℤ => x + y) 0 [2, 3, 5] [[0, 1], [], [2]]).getD 1 0 = 0 :=
  C8_empty_subset_zero (fun x y : ℤ => x + y) 0 intAddACZ [2, 3, 5] [[0, 1], [], [2]]
    (by decide) (by unfold ValidSubsets; decide) (by decide) 1 (by decide) rfl

/-- Claim C10 (confirmed): on the empty elements list `multisubset` raises
the math-domain error (from `math.log(0)` in the cutoff expression) for
every subsets argument whatsoever — it never returns a list of zeros. -/
theorem C10_empty_elements_error {α : Type} (adder : α → α → α) (zero : α)
    (subsets : List (List ℕ)) :
    multisubset adder zero [] subsets = .error .mathDomain := rfl

end Claims

end Multicombs
